import Mathlib

/-!
A shallow embedding of `cvd_src/videosource.cpp` (libcvd): the literal codec
(`escape`, `unescape`), the formatter (`operator<<`), the lexer primitives,
the grammar parser (`parse`) and the option resolvers (`get_files_options`,
`get_v4l2_options`, `get_file_options`), with the properties proved about them.

Conventions of the embedding:
* a `std::string` is the list of its byte values (`Nat`, below 256 for a real
  byte); `bytes` turns an ASCII text into that list;
* the input stream `std::istream& in` is the list of the bytes still to be
  read: `in.peek()` is the head of the list, with the empty list for the end
  of input (`EOF`), and `in.get()` and `in.ignore()` drop the head;
* character classification (`isalnum`, `isspace`, ...) is that of the "C"
  locale;
* an `int` is an `Int`; `atoi` and the stream extraction `>>` of an `int`
  and of a `char` are those of the C and C++ libraries;
* a thrown exception is a value of `Exception`; `parse` returns the outcome
  together with the record `vs` as the call leaves it, because it writes into
  `vs` while it reads;
* the loop of `read_quoted_literal` and the option loop of `parse` carry a fuel
  counter, and `Result.timeout` says that the fuel ran out while the loop was
  still running.
-/

namespace CVD

/-- Bytes of an ASCII text. -/
def bytes (s : String) : List Nat := s.data.map Char.toNat

/-- The two exception classes thrown by the file, each with its message. -/
inductive Exception where
  | ParseException (what : List Nat)
  | VideoSourceException (what : List Nat)
  deriving DecidableEq, Repr

deriving instance DecidableEq for Except

/-- Outcome of running a piece of code: normal return, a thrown exception, or
the fuel ran out before the code returned. -/
inductive Result (α : Type) where
  | ok (a : α)
  | throws (e : Exception)
  | timeout
  deriving DecidableEq, Repr

/-! ## C library character classification (the "C" locale) -/

/-- C library `isdigit`. -/
def isdigit (c : Nat) : Bool := 48 ≤ c && c ≤ 57

/-- C library `isupper`. -/
def isupper (c : Nat) : Bool := 65 ≤ c && c ≤ 90

/-- C library `islower`. -/
def islower (c : Nat) : Bool := 97 ≤ c && c ≤ 122

/-- C library `isalnum`. -/
def isalnum (c : Nat) : Bool := isdigit c || isupper c || islower c

/-- C library `isxdigit`. -/
def isxdigit (c : Nat) : Bool := isdigit c || (65 ≤ c && c ≤ 70) || (97 ≤ c && c ≤ 102)

/-- C library `isspace`: space, and the five controls TAB LF VT FF CR. -/
def isspace (c : Nat) : Bool := c == 32 || (9 ≤ c && c ≤ 13)

/-- C library `isgraph`: printable and not the space. -/
def isgraph (c : Nat) : Bool := 33 ≤ c && c ≤ 126

/-- C library `::tolower` on one character. -/
def ctolower (c : Nat) : Nat := if isupper c then c + 32 else c

/-! ## Literal codec -/

/-- The table `escaped[256]` as `escape` initialises it on first use. -/
def escaped : List (List Nat) :=
  let t0 := (List.range 256).map (fun i => [i])
  let t1 := t0.set 7 [92, 97]      -- BEL, backslash a
  let t2 := t1.set 8 [92, 98]      -- BS, backslash b
  let t3 := t2.set 12 [92, 102]    -- FF, backslash f
  let t4 := t3.set 10 [92, 110]    -- LF, backslash n
  let t5 := t4.set 13 [92, 114]    -- CR, backslash r
  let t6 := t5.set 9 [92, 116]     -- TAB, backslash t
  let t7 := t6.set 11 [92, 118]    -- VT, backslash v
  let t8 := t7.set 92 [92, 92]     -- backslash
  let t9 := t8.set 39 [92, 39]     -- single quote
  t9.set 34 [92, 34]               -- double quote

/-- `std::string escape(char c)`: `escaped[(unsigned char)c]`. -/
def escape (c : Nat) : List Nat := escaped.getD (c % 256) []

/-- The table `mapping` of `unescape`, without its `{0,0}` terminator. -/
def mapping : List (Nat × Nat) :=
  [(97, 7), (98, 8), (102, 12), (110, 10), (114, 13), (116, 9), (118, 11),
   (92, 92), (39, 39), (34, 34)]

/-- The `for` loop of `unescape`: the first argument is `s` from index `i` on,
the second is `ret`. -/
def unescape_loop : List Nat → List Nat → Except Exception (List Nat)
  | [], ret => .ok ret
  | c :: rest, ret =>
    if c = 92 then
      match rest with
      | [] => .error (.ParseException (bytes "illegal '\\' terminating literal"))
      | e :: rest1 =>
        if isdigit e then
          match rest1 with
          | d2 :: d3 :: rest2 =>
            if (d2 < 48 || d2 > 55) || (d3 < 48 || d3 > 55) then
              .error (.ParseException (bytes "partial octal character code; need three digits"))
            else
              let code := (e - 48) * 64 + (d2 - 48) * 8 + d3 - 48
              if code > 255 then
                .error (.ParseException (bytes "invalid octal character code; must be in [000,377]"))
              else unescape_loop rest2 (ret ++ [code % 256])
          | _ => .error (.ParseException (bytes "partial octal character code; need three digits"))
        else if e = 104 then
          match rest1 with
          | x :: y :: rest2 =>
            if !isxdigit x || !isxdigit y then
              .error (.ParseException (bytes "partial hex character code; need two hex digits"))
            else
              let code := (if isdigit x then x - 48 else ctolower x - 97 + 10) * 16 +
                (if isdigit y then y - 48 else ctolower y - 97 + 10)
              unescape_loop rest2 (ret ++ [code % 256])
          | _ => .error (.ParseException (bytes "partial hex character code; need two hex digits"))
        else
          match mapping.find? (fun m => m.1 == e) with
          | none => .error (.ParseException (bytes "unknown escape sequence"))
          | some m => unescape_loop rest1 (ret ++ [m.2])
    else unescape_loop rest (ret ++ [c])

/-- `std::string unescape(const std::string& s)`. -/
def unescape (s : List Nat) : Except Exception (List Nat) := unescape_loop s []

/-! ## The record and its formatter -/

/-- The record `VideoSource`: protocol, ordered option list, identifier. -/
structure VideoSource where
  protocol : List Nat
  options : List (List Nat × List Nat)
  identifier : List Nat
  deriving DecidableEq, Repr

/-- A default-constructed `VideoSource`. -/
def VideoSource.empty : VideoSource := ⟨[], [], []⟩

/-- The body of the `for` loop of `operator<<`: `name=value, ` for each option. -/
def render_options : List (List Nat × List Nat) → List Nat
  | [] => []
  | o :: rest => o.1 ++ bytes "=" ++ o.2 ++ bytes ", " ++ render_options rest

/-- The formatter `operator<<(std::ostream&, const VideoSource&)`: the bytes
written to `out`. -/
def render (vs : VideoSource) : List Nat :=
  vs.protocol ++ bytes ":" ++
  (if vs.options ≠ [] then bytes "[ " ++ render_options vs.options ++ bytes "]" else []) ++
  bytes "//" ++ vs.identifier

/-! ## Lexer primitives -/

/-- Conversion of the `int` returned by `in.peek()` or `in.get()` to `char`:
`EOF` (-1) becomes the byte 255. -/
def to_char (c : Option Nat) : Nat := c.getD 255

/-- The function `match(std::istream& in, char c)`. -/
def match_ (inp : List Nat) (c : Nat) : Except Exception (List Nat) :=
  if inp.head? ≠ some c then
    .error (.ParseException
      (bytes "expected '" ++ [c] ++ bytes "', got '" ++ escape (to_char inp.head?) ++ bytes "'"))
  else .ok inp.tail

/-- The loop `while (p(in.peek())) s += in.get();`: the bytes read and the
rest of the stream. -/
def read_while (p : Nat → Bool) (inp : List Nat) : List Nat × List Nat :=
  (inp.takeWhile p, inp.dropWhile p)

/-- The function `skip_ws`: `while (isspace(in.peek())) in.ignore();`. -/
def skip_ws (inp : List Nat) : List Nat := inp.dropWhile isspace

/-- The loop condition of `read_word`: alphanumeric or underscore. -/
def is_word_char (c : Nat) : Bool := isalnum c || c == 95

/-- The function `read_word`. -/
def read_word (inp : List Nat) : List Nat × List Nat := read_while is_word_char inp

/-- The function `read_path`. -/
def read_path (inp : List Nat) : List Nat × List Nat := read_while isgraph inp

/-- The `while` loop of `read_quoted_literal`, with `value` as second list.
`none` when the fuel runs out.  At the end of input `in.get()` returns `EOF`,
which is stored as the byte 255, and the stream stays at its end. -/
def read_quoted_loop : Nat → List Nat → List Nat → Option (List Nat × List Nat)
  | 0, _, _ => none
  | fuel + 1, inp, value =>
    if inp.head? ≠ some 34 then
      let c := to_char inp.head?
      let value1 := value ++ [c]
      if c = 92 then
        read_quoted_loop fuel inp.tail.tail (value1 ++ [to_char inp.tail.head?])
      else read_quoted_loop fuel inp.tail value1
    else some (value, inp)

/-- The function `read_quoted_literal`: the literal between the quotes (escapes
not yet interpreted) and the rest of the stream. -/
def read_quoted_literal (fuel : Nat) (inp : List Nat) : Result (List Nat × List Nat) :=
  match match_ inp 34 with
  | .error e => .throws e
  | .ok in1 =>
    match read_quoted_loop fuel in1 [] with
    | none => .timeout
    | some (value, in2) =>
      match match_ in2 34 with
      | .error e => .throws e
      | .ok in3 => .ok (value, in3)

/-- The function `tolower(std::string& s)`. -/
def tolower (s : List Nat) : List Nat := s.map ctolower

/-! ## The grammar parser -/

/-- One iteration of the option loop of `parse` up to its `push_back`: the
pair that is pushed and the rest of the stream. -/
def read_option (fuel : Nat) (inp : List Nat) : Result ((List Nat × List Nat) × List Nat) :=
  let in1 := skip_ws inp
  let w := read_word in1
  let name := tolower w.1
  let in2 := skip_ws w.2
  if in2.head? ≠ some 61 then .ok ((name, []), in2)
  else
    let in3 := skip_ws in2.tail
    if in3.head? = some 34 then
      match read_quoted_literal fuel in3 with
      | .timeout => .timeout
      | .throws e => .throws e
      | .ok (lit, in4) =>
        match unescape lit with
        | .error e => .throws e
        | .ok v => .ok ((name, v), in4)
    else
      let v := read_word in3
      .ok ((name, v.1), v.2)

/-- The loop `while (true)` of `parse` over the options: the outcome with the
rest of the stream, and `vs.options` as the loop leaves it.  The first
argument counts the iterations allowed, the second is the fuel of the
quoted-literal loop. -/
def parse_options : Nat → Nat → List Nat → List (List Nat × List Nat) →
    Result (List Nat) × List (List Nat × List Nat)
  | 0, _, _, opts => (.timeout, opts)
  | n + 1, fuel, inp, opts =>
    match read_option fuel inp with
    | .timeout => (.timeout, opts)
    | .throws e => (.throws e, opts)
    | .ok (o, in1) =>
      let opts1 := opts ++ [o]
      let in2 := skip_ws in1
      if in2.head? ≠ some 44 then (.ok in2, opts1)
      else parse_options n fuel in2.tail opts1

/-- The end of `parse`, from the first `match(in, '/')` on. -/
def parse_identifier (fuel : Nat) (inp : List Nat) (vs : VideoSource) :
    Result (List Nat) × VideoSource :=
  match match_ inp 47 with
  | .error e => (.throws e, vs)
  | .ok in1 =>
    match match_ in1 47 with
    | .error e => (.throws e, vs)
    | .ok in2 =>
      if in2.head? = some 34 then
        match read_quoted_literal fuel in2 with
        | .timeout => (.timeout, vs)
        | .throws e => (.throws e, vs)
        | .ok (id, in3) =>
          match unescape id with
          | .error e => (.throws e, vs)
          | .ok u => (.ok in3, { vs with identifier := u })
      else
        let id := read_path in2
        (.ok id.2, { vs with identifier := id.1 })

/-- The function `parse(std::istream& in, VideoSource& vs)`: the outcome (with
the rest of the stream on return) and the record `vs` as the call leaves it,
also when it throws. -/
def parse (fuel : Nat) (inp : List Nat) (vs : VideoSource) : Result (List Nat) × VideoSource :=
  let p := read_while isalnum (skip_ws inp)
  let prot := p.1
  if prot.length = 0 then
    (.throws (.ParseException (bytes "protocol must not be empty")), vs)
  else
    let vs1 := { vs with protocol := prot }
    if p.2.head? ≠ some 58 then
      (.throws (.ParseException (bytes "expected ':' after protocol")), vs1)
    else
      let in1 := p.2.tail
      if in1.head? = some 91 then
        match parse_options fuel fuel in1.tail vs1.options with
        | (.timeout, opts) => (.timeout, { vs1 with options := opts })
        | (.throws e, opts) => (.throws e, { vs1 with options := opts })
        | (.ok in2, opts) =>
          match match_ (skip_ws in2) 93 with
          | .error e => (.throws e, { vs1 with options := opts })
          | .ok in3 => parse_identifier fuel in3 { vs1 with options := opts }
      else parse_identifier fuel in1 vs1

/-! ## Backend option resolvers -/

/-- The enumeration `VideoBufferFlags::OnEndOfBuffer`, declared in a header
outside this file: the three values that the file uses. -/
inductive OnEndOfBuffer where
  | RepeatLastFrame
  | UnsetPending
  | Loop
  deriving DecidableEq, Repr

/-- The class `ImageRef`, declared in a header outside this file: a pair of
`int` coordinates. -/
structure ImageRef where
  x : Int
  y : Int
  deriving DecidableEq, Repr

/-- Value of a run of decimal digits. -/
def digits_value (ds : List Nat) : Nat := ds.foldl (fun n d => n * 10 + (d - 48)) 0

/-- An optional sign in front of a number: whether it is a minus, and the
text after it. -/
def read_sign (s : List Nat) : Bool × List Nat :=
  if s.head? = some 45 then (true, s.tail)
  else if s.head? = some 43 then (false, s.tail)
  else (false, s)

/-- C library `atoi`: skips leading whitespace, reads an optional sign and
the run of decimal digits that follows, and ignores the rest; no digits give
0.  A value outside `int` (undefined by the C standard) is taken as glibc
computes it: `strtol` saturated to 64 bits, then truncated to 32 bits. -/
def atoi (s : List Nat) : Int :=
  let sg := read_sign (s.dropWhile isspace)
  let n : Int := digits_value (sg.2.takeWhile isdigit)
  let v : Int := if sg.1 then -n else n
  let l : Int :=
    if v < -9223372036854775808 then -9223372036854775808
    else if 9223372036854775807 < v then 9223372036854775807
    else v
  (l + 2147483648) % 4294967296 - 2147483648

/-- The extraction `in >> i` of an `int` from a stream: skips whitespace,
reads an optional sign and a run of decimal digits; fails (`none`) without a
digit or when the value does not fit in `int`. -/
def extract_int (inp : List Nat) : Option (Int × List Nat) :=
  let sg := read_sign (skip_ws inp)
  let ds := sg.2.takeWhile isdigit
  if ds = [] then none
  else
    let n : Int := digits_value ds
    let v : Int := if sg.1 then -n else n
    if v < -2147483648 ∨ 2147483647 < v then none
    else some (v, sg.2.dropWhile isdigit)

/-- The extraction `in >> c` of a `char` from a stream: skips whitespace and
reads one character; fails (`none`) at the end of input. -/
def extract_char (inp : List Nat) : Option (Nat × List Nat) :=
  match skip_ws inp with
  | [] => none
  | c :: rest => some (c, rest)

/-- The output parameters of `get_files_options`. -/
structure FilesOptions where
  fps : Int
  ra_frames : Int
  eob : OnEndOfBuffer
  deriving DecidableEq, Repr

/-- The `for` loop of `get_files_options` over the options. -/
def get_files_options_loop : List (List Nat × List Nat) → FilesOptions →
    Except Exception FilesOptions
  | [], c => .ok c
  | o :: rest, c =>
    if o.1 = bytes "fps" then
      get_files_options_loop rest { c with fps := atoi o.2 }
    else if o.1 = bytes "read_ahead" then
      get_files_options_loop rest
        { c with ra_frames := if o.2.length ≠ 0 then atoi o.2 else 50 }
    else if o.1 = bytes "on_end" then
      if o.2 = bytes "loop" then
        get_files_options_loop rest { c with eob := .Loop }
      else if o.2 = bytes "unset_pending" then
        get_files_options_loop rest { c with eob := .UnsetPending }
      else if o.2 = bytes "repeat_last" then
        get_files_options_loop rest { c with eob := .RepeatLastFrame }
      else
        .error (.VideoSourceException (bytes "invalid end-of-buffer behaviour: " ++ o.2 ++
          bytes "\n\t valid options are repeat_last, unset_pending, loop"))
    else
      .error (.VideoSourceException (bytes "invalid option for files protocol: " ++ o.1 ++
        bytes "\n\t valid options: read_ahead, on_end, fps"))

/-- The function `get_files_options`. -/
def get_files_options (vs : VideoSource) : Except Exception FilesOptions :=
  get_files_options_loop vs.options ⟨30, 0, .RepeatLastFrame⟩

/-- The output parameters of `get_v4l2_options`. -/
structure V4L2Options where
  size : ImageRef
  input : Int
  interlaced : Bool
  deriving DecidableEq, Repr

/-- The body of the `for` loop of `get_v4l2_options`, for the option `o` and
the current values `c` of the output parameters. -/
def get_v4l2_options_step (o : List Nat × List Nat) (c : V4L2Options) :
    Except Exception V4L2Options :=
  if o.1 = bytes "size" then
    let s := tolower o.2
    if s = bytes "vga" then .ok { c with size := ⟨640, 480⟩ }
    else if s = bytes "qvga" then .ok { c with size := ⟨320, 240⟩ }
    else if s = bytes "pal" then .ok { c with size := ⟨720, 576⟩ }
    else if s = bytes "ntsc" then .ok { c with size := ⟨720, 480⟩ }
    else
      match extract_int s with
      | none => .error (.ParseException (bytes "invalid image size specification: '" ++
          o.2 ++ bytes "'\n\t valid specs: vga, qvga, pal, ntsc, <width>x<height>"))
      | some (w, in1) =>
        match extract_char in1 with
        | none => .error (.ParseException (bytes "invalid image size specification: '" ++
            o.2 ++ bytes "'\n\t valid specs: vga, qvga, pal, ntsc, <width>x<height>"))
        | some (_, in2) =>
          match extract_int in2 with
          | none => .error (.ParseException (bytes "invalid image size specification: '" ++
              o.2 ++ bytes "'\n\t valid specs: vga, qvga, pal, ntsc, <width>x<height>"))
          | some (h, _) => .ok { c with size := ⟨w, h⟩ }
  else if o.1 = bytes "input" then
    .ok { c with input := atoi o.2 }
  else if o.1 = bytes "interlaced" ∨ o.1 = bytes "fields" then
    if o.2.length ≠ 0 then
      let s := tolower o.2
      if s = bytes "true" ∨ s = bytes "yes" then .ok { c with interlaced := true }
      else if s = bytes "false" ∨ s = bytes "no" then .ok { c with interlaced := false }
      else
        .error (.ParseException (bytes "invalid interlaced/fields setting '" ++ s ++
          bytes "' (must be true/false or yes/no)"))
    else .ok { c with interlaced := true }
  else
    .error (.VideoSourceException (bytes "invalid option for 'v4l2' protocol: " ++ o.1 ++
      bytes "\n\t valid options: size, input, interlaced, fields"))

/-- The `for` loop of `get_v4l2_options` over the options: it stops at the
first option whose handling throws. -/
def get_v4l2_options_loop : List (List Nat × List Nat) → V4L2Options →
    Except Exception V4L2Options
  | [], c => .ok c
  | o :: rest, c =>
    match get_v4l2_options_step o c with
    | .error e => .error e
    | .ok c1 => get_v4l2_options_loop rest c1

/-- The function `get_v4l2_options`. -/
def get_v4l2_options (vs : VideoSource) : Except Exception V4L2Options :=
  get_v4l2_options_loop vs.options ⟨⟨640, 480⟩, -1, false⟩

/-- The output parameters of `get_file_options`. -/
structure FileOptions where
  ra_frames : Int
  eob : OnEndOfBuffer
  deriving DecidableEq, Repr

/-- The `for` loop of `get_file_options` over the options. -/
def get_file_options_loop : List (List Nat × List Nat) → FileOptions →
    Except Exception FileOptions
  | [], c => .ok c
  | o :: rest, c =>
    if o.1 = bytes "read_ahead" then
      get_file_options_loop rest
        { c with ra_frames := if o.2.length ≠ 0 then atoi o.2 else 50 }
    else if o.1 = bytes "on_end" then
      if o.2 = bytes "loop" then
        get_file_options_loop rest { c with eob := .Loop }
      else if o.2 = bytes "unset_pending" then
        get_file_options_loop rest { c with eob := .UnsetPending }
      else if o.2 = bytes "repeat_last" then
        get_file_options_loop rest { c with eob := .RepeatLastFrame }
      else
        .error (.VideoSourceException (bytes "invalid end-of-buffer behaviour: " ++ o.2 ++
          bytes "\n\t valid options are repeat_last, unset_pending, loop"))
    else
      .error (.VideoSourceException (bytes "invalid option for 'file' protocol: " ++ o.1 ++
        bytes "\n\t valid options: read_ahead, on_end, fps"))

/-- The function `get_file_options`: `ra_frames` is not set by the function
before the loop, so its value on entry is an argument. -/
def get_file_options (vs : VideoSource) (ra_frames : Int) : Except Exception FileOptions :=
  get_file_options_loop vs.options ⟨ra_frames, .RepeatLastFrame⟩

/-! ## Definitions used to state the properties -/

/-- Value of a hexadecimal digit character: 0-9, a-f, A-F. -/
def hexval (x : Nat) : Nat :=
  if 48 ≤ x ∧ x ≤ 57 then x - 48
  else if 97 ≤ x ∧ x ≤ 102 then x - 87
  else x - 55

/-- The bytes that have a named escape: BEL, BS, FF, LF, CR, TAB, VT,
backslash, single quote, double quote. -/
def named_bytes : List Nat := [7, 8, 12, 10, 13, 9, 11, 92, 39, 34]

/-- The characters that name an escape after a backslash:
a b f n r t v, backslash, single quote, double quote. -/
def named_escape_chars : List Nat := [97, 98, 102, 110, 114, 116, 118, 92, 39, 34]

/-- One unit of the content of a quoted literal: a single character other
than the double quote and the backslash, or a backslash followed by any one
character. -/
def is_unit (u : List Nat) : Bool :=
  match u with
  | [x] => x != 34 && x != 92
  | [b, _] => b == 92
  | _ => false

/-- The lower-case form of a text as the specification words it: each of the
letters `A` to `Z` becomes the letter `a` to `z`, every other byte is kept. -/
def lower_case (s : List Nat) : List Nat :=
  s.map (fun c => if 65 ≤ c ∧ c ≤ 90 then c + 32 else c)

/-- The option text `n_1=v_1, n_2=v_2, ..., n_k=v_k`. -/
def options_text : List (List Nat × List Nat) → List Nat
  | [] => []
  | [o] => o.1 ++ bytes "=" ++ o.2
  | o :: o2 :: rest => o.1 ++ bytes "=" ++ o.2 ++ bytes ", " ++ options_text (o2 :: rest)

/-- The last option of the list whose name is `k`, if there is one. -/
def last_named (k : List Nat) (opts : List (List Nat × List Nat)) :
    Option (List Nat × List Nat) :=
  opts.reverse.find? (fun o => o.1 == k)

/-- The value `f v` for the value `v` of the last option named `k`, or `d`
when no option has that name. -/
def last_or {α : Type} (k : List Nat) (opts : List (List Nat × List Nat)) (d : α)
    (f : List Nat → α) : α :=
  (last_named k opts).elim d (fun o => f o.2)

/-- The behaviour named by a value of `on_end`:
`loop`, `unset_pending`, `repeat_last`. -/
def on_end_value (v : List Nat) : OnEndOfBuffer :=
  if v = bytes "loop" then .Loop
  else if v = bytes "unset_pending" then .UnsetPending
  else .RepeatLastFrame

/-- The result of the generic resolver as the specification words it: each
field comes from the last option of its name, or is the default. -/
def files_options_spec (opts : List (List Nat × List Nat)) : FilesOptions :=
  { fps := last_or (bytes "fps") opts 30 atoi,
    ra_frames := last_or (bytes "read_ahead") opts 0 (fun v => if v = [] then 50 else atoi v),
    eob := last_or (bytes "on_end") opts .RepeatLastFrame on_end_value }

/-- An option that the generic resolver accepts: named `fps` or `read_ahead`,
or named `on_end` with one of the three values. -/
def files_option_ok (o : List Nat × List Nat) : Prop :=
  o.1 = bytes "fps" ∨ o.1 = bytes "read_ahead" ∨
  (o.1 = bytes "on_end" ∧
    (o.2 = bytes "loop" ∨ o.2 = bytes "unset_pending" ∨ o.2 = bytes "repeat_last"))

instance (o : List Nat × List Nat) : Decidable (files_option_ok o) := by
  unfold files_option_ok
  infer_instance

/-- The option names of the V4L2 resolver. -/
def v4l2_keys : List (List Nat) :=
  [bytes "size", bytes "input", bytes "interlaced", bytes "fields"]

/-- The integer denoted by the longest beginning of `v` that is an optionally
signed run of decimal digits; 0 when `v` does not begin with one. -/
def leading_int (v : List Nat) : Int :=
  let sg := read_sign v
  let n : Int := digits_value (sg.2.takeWhile isdigit)
  if sg.1 then -n else n

/-! ## The literal codec: properties -/

theorem unescape_loop_no_backslash (s : List Nat) (hs : 92 ∉ s) (ret : List Nat) :
    unescape_loop s ret = .ok (ret ++ s) := by
  induction s generalizing ret with
  | nil => simp [unescape_loop]
  | cons c rest ih =>
    have hc : c ≠ 92 := fun h => hs (by simp [h])
    have hr : 92 ∉ rest := fun h => hs (by simp [h])
    rw [unescape_loop.eq_def]
    simp only [if_neg hc]
    rw [ih hr]
    simp

theorem escape_roundtrip_table : ∀ b, b < 256 → unescape (escape b) = .ok [b] := by
  decide!

theorem escape_plain_table :
    ∀ b, b < 256 → b ∉ named_bytes → escape b = [b] ∧ unescape [b] = .ok [b] := by
  decide!

theorem unescape_no_backslash (s : List Nat) (hs : 92 ∉ s) : unescape s = .ok s := by
  simpa [unescape] using unescape_loop_no_backslash s hs []

/-- C3: for every byte, unescaping its escape gives the byte back; the ten
named bytes escape to backslash plus their letter, every other byte escapes
to itself and is left unchanged by `unescape`. -/
theorem escape_unescape_byte (b : Nat) (hb : b < 256) :
    unescape (escape b) = .ok [b] ∧
    (b = 7 → escape b = bytes "\\a") ∧ (b = 8 → escape b = bytes "\\b") ∧
    (b = 12 → escape b = bytes "\\f") ∧ (b = 10 → escape b = bytes "\\n") ∧
    (b = 13 → escape b = bytes "\\r") ∧ (b = 9 → escape b = bytes "\\t") ∧
    (b = 11 → escape b = bytes "\\v") ∧ (b = 92 → escape b = bytes "\\\\") ∧
    (b = 39 → escape b = bytes "\\'") ∧ (b = 34 → escape b = bytes "\\\"") ∧
    (b ∉ named_bytes → escape b = [b] ∧ unescape [b] = .ok [b]) :=
  ⟨escape_roundtrip_table b hb, fun h => h ▸ rfl, fun h => h ▸ rfl, fun h => h ▸ rfl,
    fun h => h ▸ rfl, fun h => h ▸ rfl, fun h => h ▸ rfl, fun h => h ▸ rfl, fun h => h ▸ rfl,
    fun h => h ▸ rfl, fun h => h ▸ rfl, escape_plain_table b hb⟩

theorem escape_unescape_byte_witness :
    unescape (escape 10) = .ok [10] ∧ escape 10 = bytes "\\n" ∧
    escape 65 = [65] ∧ unescape [65] = .ok [65] :=
  have h := escape_unescape_byte 10 (by decide)
  have h2 := escape_unescape_byte 65 (by decide)
  ⟨h.1, h.2.2.2.2.1 rfl, h2.2.2.2.2.2.2.2.2.2.2.2 (by decide)⟩

/-- C8: backslash followed by three digits, the last two octal: `unescape`
succeeds exactly when the octal value is at most 255 and then returns that one
byte; above 255 it throws a `ParseException`. -/
theorem unescape_octal (d1 d2 d3 : Nat) (h1 : 48 ≤ d1 ∧ d1 ≤ 57)
    (h2 : 48 ≤ d2 ∧ d2 ≤ 55) (h3 : 48 ≤ d3 ∧ d3 ≤ 55) :
    ((∃ r, unescape [92, d1, d2, d3] = .ok r) ↔
      64 * (d1 - 48) + 8 * (d2 - 48) + (d3 - 48) ≤ 255) ∧
    (64 * (d1 - 48) + 8 * (d2 - 48) + (d3 - 48) ≤ 255 →
      unescape [92, d1, d2, d3] = .ok [64 * (d1 - 48) + 8 * (d2 - 48) + (d3 - 48)]) ∧
    (255 < 64 * (d1 - 48) + 8 * (d2 - 48) + (d3 - 48) →
      unescape [92, d1, d2, d3] = .error (.ParseException
        (bytes "invalid octal character code; must be in [000,377]"))) := by
  obtain ⟨h1a, h1b⟩ := h1
  obtain ⟨h2a, h2b⟩ := h2
  obtain ⟨h3a, h3b⟩ := h3
  have hd : isdigit d1 = true := by simp [isdigit, h1a, h1b]
  have hn2 : ¬ (d2 < 48 ∨ 55 < d2) := by omega
  have hn3 : ¬ (d3 < 48 ∨ 55 < d3) := by omega
  have hcode : (d1 - 48) * 64 + (d2 - 48) * 8 + d3 - 48 =
      64 * (d1 - 48) + 8 * (d2 - 48) + (d3 - 48) := by omega
  by_cases hv : 64 * (d1 - 48) + 8 * (d2 - 48) + (d3 - 48) ≤ 255
  · have hval : unescape [92, d1, d2, d3] =
        .ok [64 * (d1 - 48) + 8 * (d2 - 48) + (d3 - 48)] := by
      have hm : (64 * (d1 - 48) + 8 * (d2 - 48) + (d3 - 48)) % 256 =
          64 * (d1 - 48) + 8 * (d2 - 48) + (d3 - 48) := Nat.mod_eq_of_lt (by omega)
      simp [unescape, unescape_loop, hd, hn2, hn3, hcode, hv, hm]
    exact ⟨⟨fun _ => hv, fun _ => ⟨_, hval⟩⟩, fun _ => hval, fun h => absurd hv (by omega)⟩
  · have herr : unescape [92, d1, d2, d3] = .error (.ParseException
        (bytes "invalid octal character code; must be in [000,377]")) := by
      simp [unescape, unescape_loop, hd, hn2, hn3, hcode, hv]
    refine ⟨⟨fun h => ?_, fun h => absurd h hv⟩, fun h => absurd h hv, fun _ => herr⟩
    obtain ⟨r, hr⟩ := h
    rw [herr] at hr
    cases hr

theorem unescape_octal_witness :
    unescape (bytes "\\101") = .ok (bytes "A") ∧
    unescape (bytes "\\400") = .error (.ParseException
      (bytes "invalid octal character code; must be in [000,377]")) :=
  ⟨(unescape_octal 49 48 49 (by decide) (by decide) (by decide)).2.1 (by decide),
   (unescape_octal 52 48 48 (by decide) (by decide) (by decide)).2.2 (by decide)⟩

theorem unescape_loop_append (pre ret : List Nat) (s u : List Nat)
    (h : unescape_loop pre ret = .ok u) :
    unescape_loop (pre ++ s) ret = unescape_loop s u := by
  induction pre, ret using unescape_loop.induct generalizing u with
  | case1 ret =>
    simp [unescape_loop] at h
    simp [h]
  | case2 ret => simp [unescape_loop] at h
  | case3 ret e he d2 d3 rest2 hbad =>
    rw [unescape_loop.eq_def] at h
    simp [he, hbad] at h
  | case4 ret e he d2 d3 rest2 hbad code hcode =>
    rw [unescape_loop.eq_def] at h
    simp only [he, hbad] at h
    simp [code] at hcode
    simp [hcode] at h
  | case5 ret e he d2 d3 rest2 hbad code hcode ih =>
    rw [unescape_loop.eq_def] at h
    simp only [he, hbad] at h
    simp [code] at hcode
    have hcode2 : ¬ 255 < (e - 48) * 64 + (d2 - 48) * 8 + d3 - 48 := by omega
    simp [hcode2] at h
    have := ih u h
    rw [List.cons_append, List.cons_append, List.cons_append, List.cons_append,
      unescape_loop.eq_def]
    simp only [he, hbad]
    simp [hcode2]
    exact this
  | case6 ret e rest1 he hshape =>
    rw [unescape_loop.eq_def] at h
    simp only [he] at h
    rcases rest1 with _ | ⟨a, _ | ⟨b, r⟩⟩
    · simp at h
    · simp at h
    · exact absurd rfl (fun hh => hshape a b r hh)
  | case7 ret d2 d3 rest2 hbad hd =>
    rw [unescape_loop.eq_def] at h
    simp [hd, hbad] at h
  | case8 ret d2 d3 rest2 hbad code hd ih =>
    rw [unescape_loop.eq_def] at h
    simp only [hd, hbad] at h
    have := ih u (by simpa [code] using h)
    rw [List.cons_append, List.cons_append, List.cons_append, List.cons_append,
      unescape_loop.eq_def]
    simp only [hd, hbad]
    simpa [code] using this
  | case9 ret rest1 hshape hd =>
    rw [unescape_loop.eq_def] at h
    simp only [hd] at h
    rcases rest1 with _ | ⟨a, _ | ⟨b, r⟩⟩
    · simp at h
    · simp at h
    · exact absurd rfl (fun hh => hshape a b r hh)
  | case10 ret e rest1 he hh hfind =>
    rw [unescape_loop.eq_def] at h
    simp [he, hh, hfind] at h
  | case11 ret e rest1 he hh m hfind ih =>
    rw [unescape_loop.eq_def] at h
    simp [he, hh, hfind] at h
    have := ih u h
    rw [List.cons_append, List.cons_append, unescape_loop.eq_def]
    simp [he, hh, hfind]
    exact this
  | case12 c rest ret hc ih =>
    rw [unescape_loop.eq_def] at h
    simp [hc] at h
    have := ih u h
    rw [List.cons_append, unescape_loop.eq_def]
    simp [hc]
    exact this

theorem unescape_append (pre u s : List Nat) (h : unescape pre = .ok u) :
    unescape (pre ++ s) = unescape_loop s u :=
  unescape_loop_append pre [] s u h

theorem hex_digit_value (x : Nat) (hx : isxdigit x = true) :
    (if isdigit x = true then x - 48 else ctolower x - 97 + 10) = hexval x ∧ hexval x < 16 := by
  simp only [isxdigit, isdigit, Bool.or_eq_true, Bool.and_eq_true, decide_eq_true_eq] at hx
  unfold hexval ctolower isupper isdigit
  simp only [Bool.and_eq_true, decide_eq_true_eq]
  split_ifs <;> omega

theorem unescape_loop_hex_short (t ret : List Nat) (ht : t.length < 2) :
    unescape_loop (92 :: 104 :: t) ret =
      .error (.ParseException (bytes "partial hex character code; need two hex digits")) := by
  rcases t with _ | ⟨a, _ | ⟨b, r⟩⟩
  · simp [unescape_loop, isdigit]
  · simp [unescape_loop, isdigit]
  · simp at ht
    omega

theorem unescape_loop_hex_bad (x y : Nat) (rest ret : List Nat)
    (hxy : ¬ (isxdigit x = true ∧ isxdigit y = true)) :
    unescape_loop (92 :: 104 :: x :: y :: rest) ret =
      .error (.ParseException (bytes "partial hex character code; need two hex digits")) := by
  rw [unescape_loop.eq_def]
  have hd : isdigit 104 = false := by decide
  have hb : (!isxdigit x || !isxdigit y) = true := by
    rcases hx : isxdigit x <;> rcases hy : isxdigit y <;> simp_all
  simp [hd, hb]

/-- C9 (as amended): backslash `h` followed by two hexadecimal digits decodes
to the byte 16*hexval(x)+hexval(y); and wherever the part of the string before
a backslash `h` unescapes successfully, fewer than two characters after the `h`,
or a non-hexadecimal character among the next two, make `unescape` throw a
`ParseException`. -/
theorem unescape_hex (pre u t rest : List Nat) (x y : Nat) :
    (isxdigit x = true → isxdigit y = true →
      unescape [92, 104, x, y] = .ok [16 * hexval x + hexval y]) ∧
    (unescape pre = .ok u → t.length < 2 → unescape (pre ++ (92 :: 104 :: t)) =
      .error (.ParseException (bytes "partial hex character code; need two hex digits"))) ∧
    (unescape pre = .ok u → ¬ (isxdigit x = true ∧ isxdigit y = true) →
      unescape (pre ++ (92 :: 104 :: x :: y :: rest)) =
      .error (.ParseException (bytes "partial hex character code; need two hex digits"))) := by
  refine ⟨fun hx hy => ?_, fun hpre ht => ?_, fun hpre hxy => ?_⟩
  · obtain ⟨ex, bx⟩ := hex_digit_value x hx
    obtain ⟨ey, bY⟩ := hex_digit_value y hy
    have hd : isdigit 104 = false := by decide
    have hm : (hexval x * 16 + hexval y) % 256 = 16 * hexval x + hexval y := by
      rw [Nat.mod_eq_of_lt (by omega)]
      omega
    unfold unescape
    rw [unescape_loop.eq_def]
    simp only [hd, hx, hy, ex, ey]
    simp [hm, unescape_loop]
  · rw [unescape_append pre u _ hpre]
    exact unescape_loop_hex_short t u ht
  · rw [unescape_append pre u _ hpre]
    exact unescape_loop_hex_bad x y rest u hxy

theorem unescape_hex_witness :
    unescape (bytes "\\h41") = .ok (bytes "A") ∧
    unescape (bytes "\\h4") =
      .error (.ParseException (bytes "partial hex character code; need two hex digits")) ∧
    unescape (bytes "ab\\hg1z") =
      .error (.ParseException (bytes "partial hex character code; need two hex digits")) :=
  ⟨(unescape_hex [] [] [] [] 52 49).1 (by decide) (by decide),
   (unescape_hex [] [] [52] [] 0 0).2.1 (by decide) (by decide),
   (unescape_hex (bytes "ab") (bytes "ab") [] (bytes "z") 103 49).2.2 (by decide) (by decide)⟩

/-- C9 (as stated) fails: the string backslash backslash `h` `4` ends in
backslash `h` followed by one character, and `unescape` returns backslash `h` `4`. -/
theorem unescape_hex_escaped_backslash :
    unescape (bytes "\\\\h4") = .ok (bytes "\\h4") := by
  decide

/-- C10: a string whose first backslash is its last character, or is followed
by a character that is no digit, not `h` and names no escape, makes `unescape`
throw a `ParseException`; a string without backslash is returned unchanged. -/
theorem unescape_first_backslash (s pre rest1 : List Nat) (e : Nat) :
    (92 ∉ pre → unescape (pre ++ [92]) =
      .error (.ParseException (bytes "illegal '\\' terminating literal"))) ∧
    (92 ∉ pre → ¬ (48 ≤ e ∧ e ≤ 57) → e ≠ 104 → e ∉ named_escape_chars →
      unescape (pre ++ 92 :: e :: rest1) =
        .error (.ParseException (bytes "unknown escape sequence"))) ∧
    (92 ∉ s → unescape s = .ok s) := by
  refine ⟨fun hpre => ?_, fun hpre hd hh hn => ?_, fun hs => ?_⟩
  · have h0 : unescape pre = .ok pre := unescape_no_backslash pre hpre
    rw [unescape_append pre pre _ h0]
    simp [unescape_loop]
  · have h0 : unescape pre = .ok pre := unescape_no_backslash pre hpre
    rw [unescape_append pre pre _ h0, unescape_loop.eq_def]
    have hd2 : isdigit e = false := by
      simp only [isdigit, Bool.and_eq_false_iff, decide_eq_false_iff_not]
      omega
    have hfind : mapping.find? (fun m => m.1 == e) = none := by
      simp only [named_escape_chars, List.mem_cons, List.mem_singleton, not_or,
        List.not_mem_nil, or_false] at hn
      obtain ⟨n1, n2, n3, n4, n5, n6, n7, n8, n9, n10⟩ := hn
      rw [List.find?_eq_none]
      intro m hm
      simp only [mapping, List.mem_cons, List.mem_singleton, List.not_mem_nil, or_false] at hm
      rcases hm with rfl | rfl | rfl | rfl | rfl | rfl | rfl | rfl | rfl | rfl <;>
        simp <;> omega
    simp [hd2, hh, hfind]
  · exact unescape_no_backslash s hs

theorem unescape_first_backslash_witness :
    unescape (bytes "ab\\") =
      .error (.ParseException (bytes "illegal '\\' terminating literal")) ∧
    unescape (bytes "ab\\qz") = .error (.ParseException (bytes "unknown escape sequence")) ∧
    unescape (bytes "my movie.avi") = .ok (bytes "my movie.avi") :=
  ⟨(unescape_first_backslash [] (bytes "ab") [] 0).1 (by decide),
   (unescape_first_backslash [] (bytes "ab") (bytes "z") 113).2.1
     (by decide) (by decide) (by decide) (by decide),
   (unescape_first_backslash (bytes "my movie.avi") [] [] 0).2.2 (by decide)⟩

theorem unescape_loop_throws (s ret : List Nat) (e : Exception)
    (h : unescape_loop s ret = .error e) : ∃ msg, e = .ParseException msg := by
  induction s, ret using unescape_loop.induct with
  | case1 ret => simp [unescape_loop] at h
  | case2 ret =>
    simp [unescape_loop] at h
    exact ⟨_, h.symm⟩
  | case3 ret e1 he d2 d3 rest2 hbad =>
    rw [unescape_loop.eq_def] at h
    simp [he, hbad] at h
    exact ⟨_, h.symm⟩
  | case4 ret e1 he d2 d3 rest2 hbad code hcode =>
    rw [unescape_loop.eq_def] at h
    simp only [he, hbad] at h
    simp [code] at hcode
    simp [hcode] at h
    exact ⟨_, h.symm⟩
  | case5 ret e1 he d2 d3 rest2 hbad code hcode ih =>
    rw [unescape_loop.eq_def] at h
    simp only [he, hbad] at h
    simp [code] at hcode
    have hcode2 : ¬ 255 < (e1 - 48) * 64 + (d2 - 48) * 8 + d3 - 48 := by omega
    simp [hcode2] at h
    exact ih h
  | case6 ret e1 rest1 he hshape =>
    rw [unescape_loop.eq_def] at h
    simp only [he] at h
    rcases rest1 with _ | ⟨a, _ | ⟨b, r⟩⟩
    · simp at h
      exact ⟨_, h.symm⟩
    · simp at h
      exact ⟨_, h.symm⟩
    · exact absurd rfl (fun hh => hshape a b r hh)
  | case7 ret d2 d3 rest2 hbad hd =>
    rw [unescape_loop.eq_def] at h
    simp only [hd, hbad] at h
    simp at h
    exact ⟨_, h.symm⟩
  | case8 ret d2 d3 rest2 hbad code hd ih =>
    rw [unescape_loop.eq_def] at h
    simp only [hd, hbad] at h
    exact ih (by simpa [code] using h)
  | case9 ret rest1 hshape hd =>
    rw [unescape_loop.eq_def] at h
    simp only [hd] at h
    rcases rest1 with _ | ⟨a, _ | ⟨b, r⟩⟩
    · simp at h
      exact ⟨_, h.symm⟩
    · simp at h
      exact ⟨_, h.symm⟩
    · exact absurd rfl (fun hh => hshape a b r hh)
  | case10 ret e1 rest1 he hh hfind =>
    rw [unescape_loop.eq_def] at h
    simp [he, hh, hfind] at h
    exact ⟨_, h.symm⟩
  | case11 ret e1 rest1 he hh m hfind ih =>
    rw [unescape_loop.eq_def] at h
    simp [he, hh, hfind] at h
    exact ih h
  | case12 c rest ret hc ih =>
    rw [unescape_loop.eq_def] at h
    simp [hc] at h
    exact ih h

/-! ## Lexer primitives: properties -/

theorem dropWhile_stop (p : Nat → Bool) (rest : List Nat)
    (h : ∀ c, rest.head? = some c → p c = false) : rest.dropWhile p = rest := by
  cases rest with
  | nil => rfl
  | cons c cs => simp [List.dropWhile, h c rfl]

theorem takeWhile_stop (p : Nat → Bool) (rest : List Nat)
    (h : ∀ c, rest.head? = some c → p c = false) : rest.takeWhile p = [] := by
  cases rest with
  | nil => rfl
  | cons c cs => simp [List.takeWhile, h c rfl]

theorem dropWhile_run (p : Nat → Bool) (w rest : List Nat) (hw : ∀ c ∈ w, p c = true) :
    (w ++ rest).dropWhile p = rest.dropWhile p := by
  induction w with
  | nil => rfl
  | cons c cs ih =>
    have hc : p c = true := hw c (by simp)
    simp only [List.cons_append, List.dropWhile, hc]
    exact ih (fun d hd => hw d (by simp [hd]))

theorem takeWhile_run (p : Nat → Bool) (w rest : List Nat) (hw : ∀ c ∈ w, p c = true) :
    (w ++ rest).takeWhile p = w ++ rest.takeWhile p := by
  induction w with
  | nil => rfl
  | cons c cs ih =>
    have hc : p c = true := hw c (by simp)
    rw [List.cons_append, List.takeWhile_cons, if_pos hc, ih (fun d hd => hw d (by simp [hd]))]
    rfl

theorem read_while_run (p : Nat → Bool) (w rest : List Nat) (hw : ∀ c ∈ w, p c = true)
    (h : ∀ c, rest.head? = some c → p c = false) : read_while p (w ++ rest) = (w, rest) := by
  simp [read_while, takeWhile_run p w rest hw, dropWhile_run p w rest hw,
    takeWhile_stop p rest h, dropWhile_stop p rest h]

theorem skip_ws_run (ws rest : List Nat) (hws : ∀ c ∈ ws, isspace c = true) :
    skip_ws (ws ++ rest) = skip_ws rest :=
  dropWhile_run isspace ws rest hws

theorem skip_ws_stop (rest : List Nat) (h : ∀ c, rest.head? = some c → isspace c = false) :
    skip_ws rest = rest :=
  dropWhile_stop isspace rest h

theorem isalnum_not_space (c : Nat) (h : isalnum c = true) : isspace c = false := by
  simp only [isalnum, isdigit, isupper, islower, Bool.or_eq_true, Bool.and_eq_true,
    decide_eq_true_eq] at h
  simp only [isspace, Bool.or_eq_false_iff, Bool.and_eq_false_iff, decide_eq_false_iff_not,
    beq_eq_false_iff_ne]
  omega

/-! ## The grammar parser: properties -/

theorem parse_unfold (fuel : Nat) (inp : List Nat) (vs : VideoSource) (prot rest : List Nat)
    (h : read_while isalnum (skip_ws inp) = (prot, rest)) :
    parse fuel inp vs =
      if prot.length = 0 then
        (.throws (.ParseException (bytes "protocol must not be empty")), vs)
      else if rest.head? ≠ some 58 then
        (.throws (.ParseException (bytes "expected ':' after protocol")),
          { vs with protocol := prot })
      else if rest.tail.head? = some 91 then
        match parse_options fuel fuel rest.tail.tail vs.options with
        | (.timeout, opts) => (.timeout, { vs with protocol := prot, options := opts })
        | (.throws e, opts) => (.throws e, { vs with protocol := prot, options := opts })
        | (.ok in2, opts) =>
          match match_ (skip_ws in2) 93 with
          | .error e => (.throws e, { vs with protocol := prot, options := opts })
          | .ok in3 => parse_identifier fuel in3 { vs with protocol := prot, options := opts }
      else parse_identifier fuel rest.tail { vs with protocol := prot } := by
  unfold parse
  simp only [h]

/-- C2: with the input split into leading whitespace, the maximal
alphanumeric run after it and the rest: an empty run makes `parse` throw
"protocol must not be empty", and a non-empty run not followed by a colon
makes it throw "expected ':' after protocol". -/
theorem parse_protocol_errors (fuel : Nat) (vs : VideoSource) (ws run rest : List Nat)
    (hws : ∀ c ∈ ws, isspace c = true) (hrun : ∀ c ∈ run, isalnum c = true)
    (hmax : ∀ c, rest.head? = some c → isalnum c = false) :
    (run = [] → (∀ c, rest.head? = some c → isspace c = false) →
      (parse fuel (ws ++ run ++ rest) vs).1 =
        .throws (.ParseException (bytes "protocol must not be empty"))) ∧
    (run ≠ [] → rest.head? ≠ some 58 →
      (parse fuel (ws ++ run ++ rest) vs).1 =
        .throws (.ParseException (bytes "expected ':' after protocol"))) := by
  constructor
  · intro hr hsp
    subst hr
    have h1 : skip_ws (ws ++ [] ++ rest) = rest := by
      rw [List.append_nil, skip_ws_run ws rest hws, skip_ws_stop rest hsp]
    have h2 : read_while isalnum rest = ([], rest) := by
      simpa using read_while_run isalnum [] rest (by simp) hmax
    have h3 : read_while isalnum (skip_ws (ws ++ [] ++ rest)) = ([], rest) := by
      rw [h1, h2]
    rw [parse_unfold fuel _ vs [] rest h3]
    simp
  · intro hr hcolon
    have hsp : ∀ c, (run ++ rest).head? = some c → isspace c = false := by
      intro c hc
      cases run with
      | nil => exact absurd rfl hr
      | cons a r =>
        simp only [List.cons_append, List.head?_cons, Option.some.injEq] at hc
        exact isalnum_not_space c (hrun c (by simp [hc]))
    have h1 : skip_ws (ws ++ run ++ rest) = run ++ rest := by
      rw [List.append_assoc, skip_ws_run ws _ hws, skip_ws_stop _ hsp]
    have h2 : read_while isalnum (run ++ rest) = (run, rest) :=
      read_while_run isalnum run rest hrun hmax
    have h3 : read_while isalnum (skip_ws (ws ++ run ++ rest)) = (run, rest) := by
      rw [h1, h2]
    have hlen : run.length ≠ 0 := by
      cases run with
      | nil => exact absurd rfl hr
      | cons a r => simp
    rw [parse_unfold fuel _ vs run rest h3, if_neg hlen, if_pos hcolon]

theorem parse_protocol_errors_witness :
    (parse 0 (bytes ":foo//bar") VideoSource.empty).1 =
      .throws (.ParseException (bytes "protocol must not be empty")) ∧
    (parse 0 (bytes "v4l2foo//bar") VideoSource.empty).1 =
      .throws (.ParseException (bytes "expected ':' after protocol")) :=
  ⟨(parse_protocol_errors 0 VideoSource.empty [] [] (bytes ":foo//bar")
      (by simp) (by simp) (by decide)).1 rfl (by decide),
   (parse_protocol_errors 0 VideoSource.empty [] (bytes "v4l2foo") (bytes "//bar")
      (by decide) (by decide) (by decide)).2 (by decide) (by decide)⟩

theorem read_quoted_loop_no_quote (fuel : Nat) (inp value : List Nat) (h : 34 ∉ inp) :
    read_quoted_loop fuel inp value = none := by
  induction fuel generalizing inp value with
  | zero => rfl
  | succ n ih =>
    have hh : inp.head? ≠ some 34 := by
      intro hc
      cases inp with
      | nil => simp at hc
      | cons a r =>
        simp only [List.head?_cons, Option.some.injEq] at hc
        exact h (by simp [hc])
    have ht : 34 ∉ inp.tail := fun hc => h (List.mem_of_mem_tail hc)
    have htt : 34 ∉ inp.tail.tail := fun hc => ht (List.mem_of_mem_tail hc)
    rw [read_quoted_loop, if_pos hh]
    simp only []
    split
    · exact ih _ _ htt
    · exact ih _ _ ht

theorem match_same (c : Nat) (rest : List Nat) : match_ (c :: rest) c = .ok rest := by
  simp [match_]

theorem parse_identifier_quoted (fuel : Nat) (body : List Nat) (vs : VideoSource) :
    parse_identifier fuel (47 :: 47 :: 34 :: body) vs =
      match read_quoted_loop fuel body [] with
      | none => (.timeout, vs)
      | some (value, in2) =>
        match match_ in2 34 with
        | .error e => (.throws e, vs)
        | .ok in3 =>
          match unescape value with
          | .error e => (.throws e, vs)
          | .ok u => (.ok in3, { vs with identifier := u }) := by
  simp only [parse_identifier, read_quoted_literal, match_same, List.head?_cons, if_true]
  cases read_quoted_loop fuel body [] with
  | none => rfl
  | some r =>
    obtain ⟨value, in2⟩ := r
    simp only []
    cases match_ in2 34 with
    | error e => rfl
    | ok in3 => simp only []

/-- C4: on an input whose quoted identifier is never closed, `parse` does not
throw: for every amount of fuel the loop of `read_quoted_literal` is still
running when the fuel is used up. -/
theorem parse_unterminated_quote_never_returns :
    ∀ fuel, parse fuel (bytes "files://\"my movie.avi") VideoSource.empty =
      (.timeout, ⟨bytes "files", [], []⟩) := by
  intro fuel
  have h : read_while isalnum (skip_ws (bytes "files://\"my movie.avi")) =
      (bytes "files", bytes "://\"my movie.avi") := by decide
  rw [parse_unfold fuel _ _ _ _ h]
  have h1 : (bytes "files").length ≠ 0 := by decide
  have h2 : ¬ ((bytes "://\"my movie.avi").head? ≠ some 58) := by decide
  have h3 : ¬ ((bytes "://\"my movie.avi").tail.head? = some 91) := by decide
  rw [if_neg h1, if_neg h2, if_neg h3]
  have h4 : (bytes "://\"my movie.avi").tail = 47 :: 47 :: 34 :: bytes "my movie.avi" := by
    decide
  rw [h4, parse_identifier_quoted,
    read_quoted_loop_no_quote fuel (bytes "my movie.avi") [] (by decide)]
  rfl

theorem read_quoted_loop_units (units : List (List Nat))
    (hu : ∀ u ∈ units, is_unit u = true) (fuel : Nat) (value rest : List Nat)
    (hf : units.length < fuel) :
    read_quoted_loop fuel (units.flatten ++ 34 :: rest) value =
      some (value ++ units.flatten, 34 :: rest) := by
  induction units generalizing fuel value with
  | nil =>
    cases fuel with
    | zero => simp at hf
    | succ n => simp [read_quoted_loop]
  | cons u us ih =>
    cases fuel with
    | zero => simp at hf
    | succ n =>
      have hn : us.length < n := by
        simp only [List.length_cons] at hf
        omega
      have hus : ∀ v ∈ us, is_unit v = true := fun v hv => hu v (by simp [hv])
      have huu : is_unit u = true := hu u (by simp)
      rcases u with _ | ⟨a, _ | ⟨b, _ | ⟨c, r⟩⟩⟩
      · simp [is_unit] at huu
      · simp only [is_unit, Bool.and_eq_true, bne_iff_ne, ne_eq] at huu
        obtain ⟨h34, h92⟩ := huu
        rw [List.flatten_cons, List.singleton_append, List.cons_append, read_quoted_loop]
        simp only [List.head?_cons, ne_eq, Option.some.injEq, h34, not_false_eq_true, if_true,
          to_char, Option.getD_some, h92, if_false, List.tail_cons]
        rw [ih hus n _ hn]
        simp
      · simp only [is_unit, beq_iff_eq] at huu
        subst huu
        rw [List.flatten_cons, List.cons_append, List.cons_append, List.cons_append,
          read_quoted_loop]
        simp only [List.head?_cons, ne_eq, Option.some.injEq, not_false_eq_true, if_true,
          to_char, Option.getD_some, List.tail_cons, List.nil_append]
        rw [if_pos (by decide)]
        simp only [List.cons_append, List.tail_cons, List.head?_cons, Option.getD_some]
        rw [ih hus n _ hn]
        simp
      · simp [is_unit] at huu

theorem read_while_protocol (p rest : List Nat) (hp : p ≠ []) (hpa : ∀ c ∈ p, isalnum c = true)
    (hrest : ∀ c, rest.head? = some c → isalnum c = false) :
    read_while isalnum (skip_ws (p ++ rest)) = (p, rest) := by
  have hsp : ∀ c, (p ++ rest).head? = some c → isspace c = false := by
    intro c hc
    cases p with
    | nil => exact absurd rfl hp
    | cons a r =>
      simp only [List.cons_append, List.head?_cons, Option.some.injEq] at hc
      exact isalnum_not_space c (hpa c (by simp [hc]))
  rw [skip_ws_stop _ hsp]
  exact read_while_run isalnum p rest hpa hrest

theorem length_ne_zero_of_ne_nil (p : List Nat) (hp : p ≠ []) : p.length ≠ 0 := by
  cases p with
  | nil => exact absurd rfl hp
  | cons a r => simp

/-- C7: for a protocol and a quoted identifier made of units (a character
other than double quote and backslash, or a backslash and one character),
`parse` yields the unescaped content as identifier when `unescape` succeeds,
throws the `ParseException` of `unescape` when it fails, and yields the content
itself when it has no backslash. -/
theorem parse_quoted_identifier (fuel : Nat) (p : List Nat) (units : List (List Nat))
    (hp : p ≠ []) (hpa : ∀ c ∈ p, isalnum c = true)
    (hu : ∀ u ∈ units, is_unit u = true) (hf : units.length < fuel) :
    (∀ u, unescape units.flatten = .ok u →
      parse fuel (p ++ bytes "://\"" ++ units.flatten ++ bytes "\"") VideoSource.empty =
        (.ok [], ⟨p, [], u⟩)) ∧
    (∀ e, unescape units.flatten = .error e →
      (∃ msg, e = .ParseException msg) ∧
      parse fuel (p ++ bytes "://\"" ++ units.flatten ++ bytes "\"") VideoSource.empty =
        (.throws e, ⟨p, [], []⟩)) ∧
    (92 ∉ units.flatten →
      parse fuel (p ++ bytes "://\"" ++ units.flatten ++ bytes "\"") VideoSource.empty =
        (.ok [], ⟨p, [], units.flatten⟩)) := by
  have hshape : p ++ bytes "://\"" ++ units.flatten ++ bytes "\"" =
      p ++ (58 :: 47 :: 47 :: 34 :: (units.flatten ++ 34 :: [])) := by
    have h1 : bytes "://\"" = [58, 47, 47, 34] := by decide
    have h2 : bytes "\"" = [34] := by decide
    rw [h1, h2]
    simp
  have hread := read_while_protocol p (58 :: 47 :: 47 :: 34 :: (units.flatten ++ 34 :: []))
    hp hpa (by simp [isalnum, isdigit, isupper, islower])
  have hparse : parse fuel (p ++ bytes "://\"" ++ units.flatten ++ bytes "\"")
      VideoSource.empty =
      match unescape units.flatten with
      | .error e => (.throws e, ⟨p, [], []⟩)
      | .ok u => (.ok [], ⟨p, [], u⟩) := by
    rw [hshape, parse_unfold fuel _ _ _ _ hread, if_neg (length_ne_zero_of_ne_nil p hp)]
    simp only [List.head?_cons, ne_eq, not_true_eq_false, if_false, List.tail_cons,
      Option.some.injEq]
    rw [if_neg (by decide), parse_identifier_quoted,
      read_quoted_loop_units units hu fuel [] [] hf]
    simp only [match_same, List.nil_append]
    cases unescape units.flatten <;> rfl
  refine ⟨fun u h => ?_, fun e h => ⟨?_, ?_⟩, fun h => ?_⟩
  · rw [hparse, h]
  · exact unescape_loop_throws _ _ e h
  · rw [hparse, h]
  · rw [hparse, unescape_no_backslash units.flatten h]

theorem parse_quoted_identifier_witness :
    parse 13 (bytes "files" ++ bytes "://\"" ++
        ((bytes "my movie.avi").map (fun c => [c])).flatten ++ bytes "\"") VideoSource.empty =
      (.ok [], ⟨bytes "files", [], ((bytes "my movie.avi").map (fun c => [c])).flatten⟩) :=
  (parse_quoted_identifier 13 (bytes "files") ((bytes "my movie.avi").map (fun c => [c]))
    (by decide) (by decide) (by decide) (by decide)).2.2 (by decide)

theorem word_char_not_space (c : Nat) (h : is_word_char c = true) :
    isspace c = false ∧ c ≠ 34 ∧ c ≠ 61 ∧ c ≠ 44 ∧ c ≠ 93 := by
  simp only [is_word_char, isalnum, isdigit, isupper, islower, Bool.or_eq_true,
    Bool.and_eq_true, decide_eq_true_eq, beq_iff_eq] at h
  simp only [isspace, Bool.or_eq_false_iff, Bool.and_eq_false_iff, decide_eq_false_iff_not,
    beq_eq_false_iff_ne]
  omega

theorem head_append_cases (v rest : List Nat) (c : Nat) (h : (v ++ rest).head? = some c) :
    c ∈ v ∨ rest.head? = some c := by
  cases v with
  | nil => exact Or.inr h
  | cons a r =>
    simp only [List.cons_append, List.head?_cons, Option.some.injEq] at h
    exact Or.inl (by simp [h])

theorem read_option_plain (fuel : Nat) (ws n v rest : List Nat)
    (hws : ∀ c ∈ ws, isspace c = true) (hn : ∀ c ∈ n, is_word_char c = true)
    (hv : ∀ c ∈ v, is_word_char c = true)
    (hrest : rest.head? = some 44 ∨ rest.head? = some 93) :
    read_option fuel (ws ++ (n ++ 61 :: (v ++ rest))) = .ok ((tolower n, v), rest) := by
  have hrest2 : ∀ c, rest.head? = some c → c = 44 ∨ c = 93 := by
    intro c hc
    rcases hrest with h | h <;> rw [h] at hc <;> simp only [Option.some.injEq] at hc <;> omega
  have hhead : ∀ c, (v ++ rest).head? = some c →
      isspace c = false ∧ c ≠ 34 := by
    intro c hc
    rcases head_append_cases v rest c hc with h | h
    · exact ⟨(word_char_not_space c (hv c h)).1, (word_char_not_space c (hv c h)).2.1⟩
    · rcases hrest2 c h with rfl | rfl <;> exact ⟨by decide, by decide⟩
  have h1 : skip_ws (ws ++ (n ++ 61 :: (v ++ rest))) = n ++ 61 :: (v ++ rest) := by
    rw [skip_ws_run ws _ hws]
    apply skip_ws_stop
    intro c hc
    rcases head_append_cases n _ c hc with h | h
    · exact (word_char_not_space c (hn c h)).1
    · simp only [List.head?_cons, Option.some.injEq] at h
      subst h
      decide
  have h2 : read_word (n ++ 61 :: (v ++ rest)) = (n, 61 :: (v ++ rest)) :=
    read_while_run is_word_char n _ hn (by
      intro c hc
      simp only [List.head?_cons, Option.some.injEq] at hc
      subst hc
      decide)
  have h3 : skip_ws (61 :: (v ++ rest)) = 61 :: (v ++ rest) :=
    skip_ws_stop _ (by
      intro c hc
      simp only [List.head?_cons, Option.some.injEq] at hc
      subst hc
      decide)
  have h4 : skip_ws (v ++ rest) = v ++ rest := skip_ws_stop _ (fun c hc => (hhead c hc).1)
  have h5 : (v ++ rest).head? ≠ some 34 := fun hc => (hhead 34 hc).2 rfl
  have h6 : read_word (v ++ rest) = (v, rest) :=
    read_while_run is_word_char v rest hv (by
      intro c hc
      rcases hrest2 c hc with rfl | rfl <;> decide)
  unfold read_option
  simp only [h1, h2, h3, List.head?_cons, ne_eq, not_true_eq_false, if_false, List.tail_cons,
    h4, h5, h6]

theorem parse_options_step (n fuel : Nat) (inp rest : List Nat)
    (o : List Nat × List Nat) (opts : List (List Nat × List Nat))
    (h : read_option fuel inp = .ok (o, rest)) :
    parse_options (n + 1) fuel inp opts =
      if (skip_ws rest).head? ≠ some 44 then (.ok (skip_ws rest), opts ++ [o])
      else parse_options n fuel (skip_ws rest).tail (opts ++ [o]) := by
  rw [parse_options, h]

theorem parse_options_text (opts : List (List Nat × List Nat)) (hne : opts ≠ [])
    (hopts : ∀ o ∈ opts, (∀ c ∈ o.1, is_word_char c = true) ∧ (∀ c ∈ o.2, is_word_char c = true))
    (n fuel : Nat) (ws rest : List Nat) (accs : List (List Nat × List Nat))
    (hws : ∀ c ∈ ws, isspace c = true) (hn : opts.length ≤ n) :
    parse_options n fuel (ws ++ (options_text opts ++ 93 :: rest)) accs =
      (.ok (93 :: rest), accs ++ opts.map (fun o => (tolower o.1, o.2))) := by
  induction opts generalizing n ws accs with
  | nil => exact absurd rfl hne
  | cons o t ih =>
    cases n with
    | zero => simp at hn
    | succ m =>
      have ho := hopts o (by simp)
      cases t with
      | nil =>
        have hshape : ws ++ (options_text [o] ++ 93 :: rest) =
            ws ++ (o.1 ++ 61 :: (o.2 ++ 93 :: rest)) := by
          have h1 : bytes "=" = [61] := by decide
          simp [options_text, h1]
        rw [hshape, parse_options_step m fuel _ _ _ _
          (read_option_plain fuel ws o.1 o.2 (93 :: rest) hws ho.1 ho.2 (Or.inr rfl))]
        have hs : skip_ws (93 :: rest) = 93 :: rest :=
          skip_ws_stop _ (by
            intro c hc
            simp only [List.head?_cons, Option.some.injEq] at hc
            subst hc
            decide)
        rw [hs]
        simp
      | cons o2 t2 =>
        have hshape : ws ++ (options_text (o :: o2 :: t2) ++ 93 :: rest) =
            ws ++ (o.1 ++ 61 :: (o.2 ++ 44 :: ([32] ++ (options_text (o2 :: t2) ++ 93 :: rest)))) := by
          have h1 : bytes "=" = [61] := by decide
          have h2 : bytes ", " = [44, 32] := by decide
          simp [options_text, h1, h2]
        rw [hshape, parse_options_step m fuel _ _ _ _
          (read_option_plain fuel ws o.1 o.2
            (44 :: ([32] ++ (options_text (o2 :: t2) ++ 93 :: rest))) hws ho.1 ho.2 (Or.inl rfl))]
        have hs : ∀ l : List Nat, skip_ws (44 :: l) = 44 :: l := fun l =>
          skip_ws_stop _ (by
            intro c hc
            simp only [List.head?_cons, Option.some.injEq] at hc
            subst hc
            decide)
        rw [hs]
        simp only [List.head?_cons, ne_eq, not_true_eq_false, if_false, List.tail_cons]
        rw [ih (by simp) (fun x hx => hopts x (by simp [hx])) m [32] (accs ++ [_])
          (by decide) (by simpa using hn)]
        simp

theorem parse_identifier_path (fuel : Nat) (id rest : List Nat) (vs : VideoSource)
    (hid : ∀ c ∈ id, isgraph c = true) (hq : id.head? ≠ some 34)
    (hrest : ∀ c, rest.head? = some c → isgraph c = false) :
    parse_identifier fuel (47 :: 47 :: (id ++ rest)) vs =
      (.ok rest, { vs with identifier := id }) := by
  have hh : (id ++ rest).head? ≠ some 34 := by
    intro hc
    rcases head_append_cases id rest 34 hc with h | h
    · cases id with
      | nil => simp at h
      | cons a r =>
        simp only [List.cons_append, List.head?_cons, Option.some.injEq] at hc
        exact hq (by simp [hc])
    · exact absurd (hrest 34 h) (by decide)
  have hr : read_path (id ++ rest) = (id, rest) := read_while_run isgraph id rest hid hrest
  simp only [parse_identifier, match_same, hh, if_false, hr]

theorem tolower_eq_lower_case (s : List Nat) : tolower s = lower_case s := by
  unfold tolower lower_case
  apply List.map_congr_left
  intro c _
  unfold ctolower isupper
  by_cases h : 65 ≤ c ∧ c ≤ 90
  · simp [h]
  · have h2 : ¬ ((decide (65 ≤ c) && decide (c ≤ 90)) = true) := by
      simpa using h
    rw [if_neg h2, if_neg h]

/-- C1: for a non-empty alphanumeric protocol, a non-empty list of options
whose names and values are non-empty words, and an identifier of printable
non-whitespace characters not starting with a double quote, parsing
`p:[n_1=v_1, ..., n_k=v_k]//id` into an empty record returns with protocol `p`,
the options in order with each name in lower case (`lower_case`, the
lower-casing as the specification words it) and each value unchanged, and
identifier `id`. -/
theorem parse_plain_source (fuel : Nat) (p id : List Nat) (opts : List (List Nat × List Nat))
    (hp : p ≠ []) (hpa : ∀ c ∈ p, isalnum c = true) (hne : opts ≠ [])
    (hopts : ∀ o ∈ opts, o.1 ≠ [] ∧ (∀ c ∈ o.1, is_word_char c = true) ∧
      o.2 ≠ [] ∧ (∀ c ∈ o.2, is_word_char c = true))
    (hid : ∀ c ∈ id, isgraph c = true) (hq : id.head? ≠ some 34)
    (hf : opts.length ≤ fuel) :
    parse fuel (p ++ bytes ":[" ++ options_text opts ++ bytes "]//" ++ id) VideoSource.empty =
      (.ok [], ⟨p, opts.map (fun o => (lower_case o.1, o.2)), id⟩) := by
  have hshape : p ++ bytes ":[" ++ options_text opts ++ bytes "]//" ++ id =
      p ++ (58 :: 91 :: ([] ++ (options_text opts ++ 93 :: 47 :: 47 :: (id ++ [])))) := by
    have h1 : bytes ":[" = [58, 91] := by decide
    have h2 : bytes "]//" = [93, 47, 47] := by decide
    rw [h1, h2]
    simp
  have hread := read_while_protocol p
    (58 :: 91 :: ([] ++ (options_text opts ++ 93 :: 47 :: 47 :: (id ++ [])))) hp hpa (by
      intro c hc
      simp only [List.head?_cons, Option.some.injEq] at hc
      subst hc
      decide)
  have hloop := parse_options_text opts hne (fun o ho => ⟨(hopts o ho).2.1, (hopts o ho).2.2.2⟩)
    fuel fuel [] (47 :: 47 :: (id ++ [])) [] (by simp) hf
  have hmap : opts.map (fun o => (tolower o.1, o.2)) =
      opts.map (fun o => (lower_case o.1, o.2)) := by
    apply List.map_congr_left
    intro o _
    rw [tolower_eq_lower_case]
  rw [hmap] at hloop
  have hs : skip_ws (93 :: 47 :: 47 :: (id ++ [])) = 93 :: 47 :: 47 :: (id ++ []) :=
    skip_ws_stop _ (by
      intro c hc
      simp only [List.head?_cons, Option.some.injEq] at hc
      subst hc
      decide)
  rw [hshape, parse_unfold fuel _ _ _ _ hread, if_neg (length_ne_zero_of_ne_nil p hp)]
  simp only [List.head?_cons, ne_eq, not_true_eq_false, if_false, List.tail_cons, if_true]
  rw [show (VideoSource.empty).options = [] from rfl, hloop]
  simp only [hs, match_same, List.nil_append]
  rw [parse_identifier_path fuel id [] _ hid hq (by simp)]

theorem parse_plain_source_witness :
    parse 2 (bytes "v4l2:[size=vga, fps=30]//dev/video0") VideoSource.empty =
      (.ok [], ⟨bytes "v4l2", [(bytes "size", bytes "vga"), (bytes "fps", bytes "30")],
        bytes "dev/video0"⟩) ∧
    parse 2 (bytes "V4L2:[SIZE=VGA, Fps_1=30]//Dev/Video0") VideoSource.empty =
      (.ok [], ⟨bytes "V4L2", [(bytes "size", bytes "VGA"), (bytes "fps_1", bytes "30")],
        bytes "Dev/Video0"⟩) ∧
    (parse 2 (bytes "V4L2:[SIZE=VGA, Fps_1=30]//Dev/Video0") VideoSource.empty).2.options =
      [(bytes "size", bytes "VGA"), (bytes "fps_1", bytes "30")] :=
  ⟨parse_plain_source 2 (bytes "v4l2") (bytes "dev/video0")
      [(bytes "size", bytes "vga"), (bytes "fps", bytes "30")]
      (by decide) (by decide) (by decide) (by decide) (by decide) (by decide) (by decide),
    parse_plain_source 2 (bytes "V4L2") (bytes "Dev/Video0")
      [(bytes "SIZE", bytes "VGA"), (bytes "Fps_1", bytes "30")]
      (by decide) (by decide) (by decide) (by decide) (by decide) (by decide) (by decide),
    by decide⟩

theorem parse_options_extends (n fuel : Nat) (inp : List Nat)
    (opts : List (List Nat × List Nat)) :
    opts <+: (parse_options n fuel inp opts).2 := by
  induction n generalizing inp opts with
  | zero => exact List.prefix_refl _
  | succ m ih =>
    rw [parse_options]
    cases h : read_option fuel inp with
    | timeout => exact List.prefix_refl _
    | throws e => exact List.prefix_refl _
    | ok r =>
      obtain ⟨o, in1⟩ := r
      simp only []
      split
      · exact List.prefix_append _ _
      · exact (List.prefix_append opts [o]).trans (ih _ _)

theorem parse_identifier_record (fuel : Nat) (inp : List Nat) (vs : VideoSource) :
    (parse_identifier fuel inp vs).2 = vs ∨
    ∃ rest u, parse_identifier fuel inp vs = (.ok rest, { vs with identifier := u }) := by
  unfold parse_identifier
  cases match_ inp 47 with
  | error e => exact Or.inl rfl
  | ok in1 =>
    simp only []
    cases match_ in1 47 with
    | error e => exact Or.inl rfl
    | ok in2 =>
      simp only []
      split
      · cases read_quoted_literal fuel in2 with
        | timeout => exact Or.inl rfl
        | throws e => exact Or.inl rfl
        | ok r =>
          obtain ⟨id, in3⟩ := r
          simp only []
          cases unescape id with
          | error e => exact Or.inl rfl
          | ok u => exact Or.inr ⟨in3, u, rfl⟩
      · exact Or.inr ⟨_, _, rfl⟩

theorem parse_identifier_throws (fuel : Nat) (inp : List Nat) (vs : VideoSource)
    (e : Exception) (h : (parse_identifier fuel inp vs).1 = .throws e) :
    (parse_identifier fuel inp vs).2 = vs := by
  rcases parse_identifier_record fuel inp vs with h1 | ⟨rest, u, h1⟩
  · exact h1
  · rw [h1] at h
    cases h

/-- C5 (as amended): when `parse` throws a `ParseException`, the identifier of
the record is unchanged and its option list is the previous list with the
options parsed so far appended; the record is unchanged as a whole when the
input has no protocol, and otherwise its protocol has been replaced by the
protocol read from the input. -/
theorem parse_failure_record (fuel : Nat) (inp : List Nat) (vs : VideoSource) (msg : List Nat)
    (h : (parse fuel inp vs).1 = .throws (.ParseException msg)) :
    (parse fuel inp vs).2.identifier = vs.identifier ∧
    vs.options <+: (parse fuel inp vs).2.options ∧
    ((read_while isalnum (skip_ws inp)).1 = [] → (parse fuel inp vs).2 = vs) ∧
    ((read_while isalnum (skip_ws inp)).1 ≠ [] →
      (parse fuel inp vs).2.protocol = (read_while isalnum (skip_ws inp)).1) := by
  have hu := parse_unfold fuel inp vs (read_while isalnum (skip_ws inp)).1
    (read_while isalnum (skip_ws inp)).2 rfl
  rw [hu] at h ⊢
  generalize (read_while isalnum (skip_ws inp)).1 = prot at h ⊢
  generalize (read_while isalnum (skip_ws inp)).2 = rest at h ⊢
  by_cases hp : prot.length = 0
  · have hp2 : prot = [] := List.length_eq_zero.mp hp
    rw [if_pos hp]
    exact ⟨rfl, List.prefix_refl _, fun _ => rfl, fun hne => absurd hp2 hne⟩
  · have hp2 : prot ≠ [] := fun hc => hp (by simp [hc])
    rw [if_neg hp] at h ⊢
    by_cases hc : rest.head? ≠ some 58
    · rw [if_pos hc]
      exact ⟨rfl, List.prefix_refl _, fun he => absurd he hp2, fun _ => rfl⟩
    · rw [if_neg hc] at h ⊢
      by_cases hb : rest.tail.head? = some 91
      · rw [if_pos hb] at h ⊢
        have hext := parse_options_extends fuel fuel rest.tail.tail vs.options
        rcases hpo : parse_options fuel fuel rest.tail.tail vs.options with ⟨res, opts⟩
        rw [hpo] at h hext
        simp only [] at hext
        cases res with
        | timeout => exact ⟨rfl, hext, fun he => absurd he hp2, fun _ => rfl⟩
        | throws e => exact ⟨rfl, hext, fun he => absurd he hp2, fun _ => rfl⟩
        | ok in2 =>
          simp only [] at h ⊢
          cases hm : match_ (skip_ws in2) 93 with
          | error e => exact ⟨rfl, hext, fun he => absurd he hp2, fun _ => rfl⟩
          | ok in3 =>
            rw [hm] at h
            simp only [] at h ⊢
            rw [parse_identifier_throws fuel in3 _ _ h]
            exact ⟨rfl, hext, fun he => absurd he hp2, fun _ => rfl⟩
      · rw [if_neg hb] at h ⊢
        rw [parse_identifier_throws fuel rest.tail _ _ h]
        exact ⟨rfl, List.prefix_refl _, fun he => absurd he hp2, fun _ => rfl⟩

theorem parse_failure_record_witness :
    (parse 1 (bytes "v4l2:[size=vga]/dev") VideoSource.empty).2.identifier = [] ∧
    [] <+: (parse 1 (bytes "v4l2:[size=vga]/dev") VideoSource.empty).2.options ∧
    ((read_while isalnum (skip_ws (bytes "v4l2:[size=vga]/dev"))).1 = [] →
      (parse 1 (bytes "v4l2:[size=vga]/dev") VideoSource.empty).2 = VideoSource.empty) ∧
    ((read_while isalnum (skip_ws (bytes "v4l2:[size=vga]/dev"))).1 ≠ [] →
      (parse 1 (bytes "v4l2:[size=vga]/dev") VideoSource.empty).2.protocol =
        (read_while isalnum (skip_ws (bytes "v4l2:[size=vga]/dev"))).1) :=
  parse_failure_record 1 (bytes "v4l2:[size=vga]/dev") VideoSource.empty
    (bytes "expected '/', got 'd'") (by decide)

/-- C5 (as stated) fails: on `v4l2:[size=vga]/dev` the call throws a
`ParseException` after it has stored the protocol and one option in the record. -/
theorem parse_failure_mutates_record :
    parse 1 (bytes "v4l2:[size=vga]/dev") VideoSource.empty =
      (.throws (.ParseException (bytes "expected '/', got 'd'")),
        ⟨bytes "v4l2", [(bytes "size", bytes "vga")], []⟩) ∧
    (parse 1 (bytes "v4l2:[size=vga]/dev") VideoSource.empty).2 ≠ VideoSource.empty := by
  decide

theorem ctolower_word (c : Nat) (h : is_word_char c = true) :
    is_word_char (ctolower c) = true ∧ isupper (ctolower c) = false := by
  simp only [is_word_char, isalnum, isdigit, isupper, islower, Bool.or_eq_true,
    Bool.and_eq_true, decide_eq_true_eq, beq_iff_eq] at h
  unfold ctolower
  split
  · rename_i hu
    simp only [isupper, Bool.and_eq_true, decide_eq_true_eq] at hu
    simp only [is_word_char, isalnum, isdigit, isupper, islower, Bool.or_eq_true,
      Bool.and_eq_true, decide_eq_true_eq, beq_iff_eq, Bool.and_eq_false_iff,
      decide_eq_false_iff_not]
    omega
  · rename_i hu
    simp only [isupper, Bool.and_eq_true, decide_eq_true_eq] at hu
    simp only [is_word_char, isalnum, isdigit, isupper, islower, Bool.or_eq_true,
      Bool.and_eq_true, decide_eq_true_eq, beq_iff_eq, Bool.and_eq_false_iff,
      decide_eq_false_iff_not]
    omega

theorem tolower_read_word (inp : List Nat) :
    ∀ c ∈ tolower (read_word inp).1, is_word_char c = true ∧ isupper c = false := by
  intro c hc
  simp only [tolower, read_word, read_while, List.mem_map] at hc
  obtain ⟨d, hd, rfl⟩ := hc
  exact ctolower_word d (List.mem_takeWhile_imp hd)

theorem read_option_name (fuel : Nat) (inp rest : List Nat) (o : List Nat × List Nat)
    (h : read_option fuel inp = .ok (o, rest)) :
    ∀ c ∈ o.1, is_word_char c = true ∧ isupper c = false := by
  have hname : o.1 = tolower (read_word (skip_ws inp)).1 := by
    unfold read_option at h
    simp only [] at h
    split at h
    · simp only [Result.ok.injEq, Prod.mk.injEq] at h
      rw [← h.1]
    · split at h
      · cases hq : read_quoted_literal fuel
          (skip_ws (skip_ws (read_word (skip_ws inp)).2).tail) with
        | timeout => simp [hq] at h
        | throws e => simp [hq] at h
        | ok r =>
          obtain ⟨lit, in4⟩ := r
          rw [hq] at h
          simp only [] at h
          cases hu : unescape lit with
          | error e => simp [hu] at h
          | ok v =>
            rw [hu] at h
            simp only [Result.ok.injEq, Prod.mk.injEq] at h
            rw [← h.1]
      · simp only [Result.ok.injEq, Prod.mk.injEq] at h
        rw [← h.1]
  rw [hname]
  exact tolower_read_word _

theorem parse_options_names (n fuel : Nat) (inp : List Nat)
    (opts : List (List Nat × List Nat)) :
    ∀ o ∈ (parse_options n fuel inp opts).2,
      o ∈ opts ∨ ∀ c ∈ o.1, is_word_char c = true ∧ isupper c = false := by
  induction n generalizing inp opts with
  | zero => exact fun o ho => Or.inl ho
  | succ m ih =>
    rw [parse_options]
    cases h : read_option fuel inp with
    | timeout => exact fun o ho => Or.inl ho
    | throws e => exact fun o ho => Or.inl ho
    | ok r =>
      obtain ⟨o1, in1⟩ := r
      have hn := read_option_name fuel inp in1 o1 h
      have hstep : ∀ o ∈ opts ++ [o1],
          o ∈ opts ∨ ∀ c ∈ o.1, is_word_char c = true ∧ isupper c = false := by
        intro o ho
        rcases List.mem_append.mp ho with h1 | h1
        · exact Or.inl h1
        · simp only [List.mem_singleton] at h1
          subst h1
          exact Or.inr hn
      simp only []
      split
      · exact hstep
      · intro o ho
        rcases ih _ _ o ho with h1 | h1
        · exact hstep o h1
        · exact Or.inr h1

theorem parse_identifier_keeps (fuel : Nat) (inp : List Nat) (vs : VideoSource) :
    (parse_identifier fuel inp vs).2.protocol = vs.protocol ∧
    (parse_identifier fuel inp vs).2.options = vs.options := by
  rcases parse_identifier_record fuel inp vs with h1 | ⟨rest, u, h1⟩
  · rw [h1]
    exact ⟨rfl, rfl⟩
  · rw [h1]
    exact ⟨rfl, rfl⟩

theorem parse_ok_record (fuel : Nat) (inp rest : List Nat) (vs r : VideoSource)
    (h : parse fuel inp vs = (.ok rest, r)) :
    r.protocol ≠ [] ∧ (∀ c ∈ r.protocol, isalnum c = true) ∧
    (∀ o ∈ r.options,
      o ∈ vs.options ∨ ∀ c ∈ o.1, is_word_char c = true ∧ isupper c = false) := by
  have hu := parse_unfold fuel inp vs (read_while isalnum (skip_ws inp)).1
    (read_while isalnum (skip_ws inp)).2 rfl
  have halnum : ∀ c ∈ (read_while isalnum (skip_ws inp)).1, isalnum c = true :=
    fun c hc => List.mem_takeWhile_imp hc
  rw [hu] at h
  generalize (read_while isalnum (skip_ws inp)).1 = prot at h halnum
  generalize (read_while isalnum (skip_ws inp)).2 = tl at h
  by_cases hp : prot.length = 0
  · rw [if_pos hp] at h
    cases h
  · have hp2 : prot ≠ [] := fun hc => hp (by simp [hc])
    rw [if_neg hp] at h
    by_cases hc : tl.head? ≠ some 58
    · rw [if_pos hc] at h
      cases h
    · rw [if_neg hc] at h
      by_cases hb : tl.tail.head? = some 91
      · rw [if_pos hb] at h
        have hnames := parse_options_names fuel fuel tl.tail.tail vs.options
        rcases hpo : parse_options fuel fuel tl.tail.tail vs.options with ⟨res, opts⟩
        rw [hpo] at h hnames
        simp only [] at hnames
        cases res with
        | timeout => cases h
        | throws e => cases h
        | ok in2 =>
          simp only [] at h
          cases hm : match_ (skip_ws in2) 93 with
          | error e =>
            rw [hm] at h
            cases h
          | ok in3 =>
            rw [hm] at h
            simp only [] at h
            have hk := parse_identifier_keeps fuel in3
              { vs with protocol := prot, options := opts }
            rw [h] at hk
            simp only [] at hk
            rw [hk.1, hk.2]
            exact ⟨hp2, halnum, hnames⟩
      · rw [if_neg hb] at h
        have hk := parse_identifier_keeps fuel tl.tail { vs with protocol := prot }
        rw [h] at hk
        simp only [] at hk
        rw [hk.1, hk.2]
        exact ⟨hp2, halnum, fun o ho => Or.inl ho⟩

theorem read_option_empty (fuel : Nat) (ws rest : List Nat)
    (hws : ∀ c ∈ ws, isspace c = true) :
    read_option fuel (ws ++ 93 :: rest) = .ok (([], []), 93 :: rest) := by
  have h0 : ∀ c, (93 :: rest).head? = some c → isspace c = false := by
    intro c hc
    simp only [List.head?_cons, Option.some.injEq] at hc
    subst hc
    decide
  have h1 : skip_ws (ws ++ 93 :: rest) = 93 :: rest := by
    rw [skip_ws_run ws _ hws, skip_ws_stop _ h0]
  have h2 : read_word (93 :: rest) = ([], 93 :: rest) :=
    read_while_run is_word_char [] (93 :: rest) (by simp) (by
      intro c hc
      simp only [List.head?_cons, Option.some.injEq] at hc
      subst hc
      decide)
  unfold read_option
  simp only [h1, h2, skip_ws_stop _ h0, List.head?_cons, ne_eq, Option.some.injEq]
  rw [if_pos (by decide)]
  rfl

theorem parse_options_render (opts : List (List Nat × List Nat))
    (hopts : ∀ o ∈ opts, (∀ c ∈ o.1, is_word_char c = true) ∧ (∀ c ∈ o.2, is_word_char c = true))
    (n fuel : Nat) (rest : List Nat) (accs : List (List Nat × List Nat))
    (hn : opts.length < n) :
    parse_options n fuel ([32] ++ (render_options opts ++ 93 :: rest)) accs =
      (.ok (93 :: rest), accs ++ opts.map (fun o => (tolower o.1, o.2)) ++ [([], [])]) := by
  have hs93 : skip_ws (93 :: rest) = 93 :: rest :=
    skip_ws_stop _ (by
      intro c hc
      simp only [List.head?_cons, Option.some.injEq] at hc
      subst hc
      decide)
  have hs44 : ∀ l : List Nat, skip_ws (44 :: l) = 44 :: l := fun l =>
    skip_ws_stop _ (by
      intro c hc
      simp only [List.head?_cons, Option.some.injEq] at hc
      subst hc
      decide)
  induction opts generalizing n accs with
  | nil =>
    cases n with
    | zero => simp at hn
    | succ m =>
      have hshape : [32] ++ (render_options [] ++ 93 :: rest) = [32] ++ 93 :: rest := by
        simp [render_options]
      rw [hshape, parse_options_step m fuel _ _ _ _
        (read_option_empty fuel [32] rest (by decide)), hs93]
      simp
  | cons o t ih =>
    cases n with
    | zero => simp at hn
    | succ m =>
      have ho := hopts o (by simp)
      have hshape : [32] ++ (render_options (o :: t) ++ 93 :: rest) =
          [32] ++ (o.1 ++ 61 :: (o.2 ++ 44 :: ([32] ++ (render_options t ++ 93 :: rest)))) := by
        have h1 : bytes "=" = [61] := by decide
        have h2 : bytes ", " = [44, 32] := by decide
        simp [render_options, h1, h2]
      rw [hshape, parse_options_step m fuel _ _ _ _
        (read_option_plain fuel [32] o.1 o.2
          (44 :: ([32] ++ (render_options t ++ 93 :: rest))) (by decide) ho.1 ho.2 (Or.inl rfl)),
        hs44]
      simp only [List.head?_cons, ne_eq, not_true_eq_false, if_false, List.tail_cons]
      rw [ih (fun x hx => hopts x (by simp [hx])) m (accs ++ [_]) (by simpa using hn)]
      simp

/-- Parsing the rendering of a well-formed record: the protocol and the
identifier come back, and a non-empty option list comes back with one more
option, of empty name and value. -/
theorem parse_render (fuel : Nat) (r : VideoSource)
    (hp : r.protocol ≠ []) (hpa : ∀ c ∈ r.protocol, isalnum c = true)
    (hopts : ∀ o ∈ r.options,
      (∀ c ∈ o.1, is_word_char c = true) ∧ (∀ c ∈ o.2, is_word_char c = true))
    (hid : ∀ c ∈ r.identifier, isgraph c = true) (hq : r.identifier.head? ≠ some 34)
    (hf : r.options.length < fuel) :
    parse fuel (render r) VideoSource.empty =
      (.ok [], ⟨r.protocol,
        if r.options = [] then []
        else r.options.map (fun o => (tolower o.1, o.2)) ++ [([], [])],
        r.identifier⟩) := by
  have h1 : bytes ":" = [58] := by decide
  have h2 : bytes "[ " = [91, 32] := by decide
  have h3 : bytes "]" = [93] := by decide
  have h4 : bytes "//" = [47, 47] := by decide
  have hcolon : ∀ l : List Nat, ∀ c, (58 :: l).head? = some c → isalnum c = false := by
    intro l c hc
    simp only [List.head?_cons, Option.some.injEq] at hc
    subst hc
    decide
  by_cases he : r.options = []
  · have hshape : render r = r.protocol ++ (58 :: 47 :: 47 :: (r.identifier ++ [])) := by
      simp [render, he, h1, h4]
    have hread := read_while_protocol r.protocol (58 :: 47 :: 47 :: (r.identifier ++ []))
      hp hpa (hcolon _)
    rw [hshape, parse_unfold fuel _ _ _ _ hread, if_neg (length_ne_zero_of_ne_nil _ hp)]
    simp only [List.head?_cons, ne_eq, not_true_eq_false, if_false, List.tail_cons,
      Option.some.injEq]
    rw [if_neg (by decide), parse_identifier_path fuel r.identifier [] _ hid hq (by simp)]
    simp [he, VideoSource.empty]
  · have hshape : render r = r.protocol ++ (58 :: 91 ::
        ([32] ++ (render_options r.options ++ 93 :: 47 :: 47 :: (r.identifier ++ [])))) := by
      simp [render, he, h1, h2, h3, h4]
    have hread := read_while_protocol r.protocol (58 :: 91 ::
        ([32] ++ (render_options r.options ++ 93 :: 47 :: 47 :: (r.identifier ++ []))))
      hp hpa (hcolon _)
    have hloop := parse_options_render r.options hopts fuel fuel
      (47 :: 47 :: (r.identifier ++ [])) [] hf
    have hs : skip_ws (93 :: 47 :: 47 :: (r.identifier ++ [])) =
        93 :: 47 :: 47 :: (r.identifier ++ []) :=
      skip_ws_stop _ (by
        intro c hc
        simp only [List.head?_cons, Option.some.injEq] at hc
        subst hc
        decide)
    rw [hshape, parse_unfold fuel _ _ _ _ hread, if_neg (length_ne_zero_of_ne_nil _ hp)]
    simp only [List.head?_cons, ne_eq, not_true_eq_false, if_false, List.tail_cons, if_true]
    rw [show (VideoSource.empty).options = [] from rfl, hloop]
    simp only [hs, match_same, List.nil_append]
    rw [parse_identifier_path fuel r.identifier [] _ hid hq (by simp)]
    simp [he]

/-- C6 (as amended): a record obtained by a successful parse whose option
values are words and whose identifier consists of printable non-whitespace
characters and does not start with a double quote is rendered to a string
that parses again, with the same protocol and the same identifier. -/
theorem render_reparse (fuel fuel2 : Nat) (inp rest : List Nat) (r : VideoSource)
    (h : parse fuel inp VideoSource.empty = (.ok rest, r))
    (hv : ∀ o ∈ r.options, ∀ c ∈ o.2, is_word_char c = true)
    (hid : ∀ c ∈ r.identifier, isgraph c = true) (hq : r.identifier.head? ≠ some 34)
    (hf : r.options.length < fuel2) :
    ∃ rest2 r2, parse fuel2 (render r) VideoSource.empty = (.ok rest2, r2) ∧
      r2.protocol = r.protocol ∧ r2.identifier = r.identifier := by
  obtain ⟨hp, hpa, hnames⟩ := parse_ok_record fuel inp rest VideoSource.empty r h
  have hopts : ∀ o ∈ r.options,
      (∀ c ∈ o.1, is_word_char c = true) ∧ (∀ c ∈ o.2, is_word_char c = true) := by
    intro o ho
    refine ⟨fun c hc => ?_, hv o ho⟩
    rcases hnames o ho with h1 | h1
    · simp [VideoSource.empty] at h1
    · exact (h1 c hc).1
  exact ⟨_, _, parse_render fuel2 r hp hpa hopts hid hq hf, rfl, rfl⟩

theorem render_reparse_witness :
    ∃ rest2 r2,
      parse 3 (render ⟨bytes "v4l2", [(bytes "size", bytes "vga"), (bytes "fps", bytes "30")],
        bytes "dev/video0"⟩) VideoSource.empty = (.ok rest2, r2) ∧
      r2.protocol = bytes "v4l2" ∧ r2.identifier = bytes "dev/video0" :=
  render_reparse 2 3 (bytes "v4l2:[size=vga, fps=30]//dev/video0") []
    ⟨bytes "v4l2", [(bytes "size", bytes "vga"), (bytes "fps", bytes "30")], bytes "dev/video0"⟩
    (by decide) (by decide) (by decide) (by decide) (by decide)

/-- C6 (as stated) fails: the record parsed from `files://"my movie.avi"` is
rendered as `files://my movie.avi`, and parsing that returns the identifier
`my`, whatever the fuel. -/
theorem render_reparse_quoted_identifier :
    parse 13 (bytes "files://\"my movie.avi\"") VideoSource.empty =
      (.ok [], ⟨bytes "files", [], bytes "my movie.avi"⟩) ∧
    render ⟨bytes "files", [], bytes "my movie.avi"⟩ = bytes "files://my movie.avi" ∧
    (∀ fuel, parse fuel (bytes "files://my movie.avi") VideoSource.empty =
      (.ok (bytes " movie.avi"), ⟨bytes "files", [], bytes "my"⟩)) ∧
    bytes "my" ≠ bytes "my movie.avi" := by
  refine ⟨by decide!, by decide, fun fuel => ?_, by decide⟩
  have h : read_while isalnum (skip_ws (bytes "files://my movie.avi")) =
      (bytes "files", bytes "://my movie.avi") := by decide
  rw [parse_unfold fuel _ _ _ _ h]
  have h1 : (bytes "files").length ≠ 0 := by decide
  have h2 : ¬ ((bytes "://my movie.avi").head? ≠ some 58) := by decide
  have h3 : ¬ ((bytes "://my movie.avi").tail.head? = some 91) := by decide
  rw [if_neg h1, if_neg h2, if_neg h3]
  have h4 : (bytes "://my movie.avi").tail = 47 :: 47 :: (bytes "my" ++ bytes " movie.avi") := by
    decide
  rw [h4, parse_identifier_path fuel (bytes "my") (bytes " movie.avi") _
    (by decide) (by decide) (by decide)]
  rfl

/-- C11: after a successful parse into an empty record the protocol is
non-empty and made of ASCII letters and digits, and every option name is made
of lower-case letters, digits and underscores, with no upper-case letter. -/
theorem parse_ok_protocol_and_names (fuel : Nat) (inp rest : List Nat) (r : VideoSource)
    (h : parse fuel inp VideoSource.empty = (.ok rest, r)) :
    r.protocol ≠ [] ∧ (∀ c ∈ r.protocol, isalnum c = true) ∧
    (∀ o ∈ r.options, ∀ c ∈ o.1,
      (islower c = true ∨ isdigit c = true ∨ c = 95) ∧ isupper c = false) := by
  obtain ⟨hp, hpa, hnames⟩ := parse_ok_record fuel inp rest VideoSource.empty r h
  refine ⟨hp, hpa, fun o ho c hc => ?_⟩
  rcases hnames o ho with h1 | h1
  · simp [VideoSource.empty] at h1
  · obtain ⟨hw, hu⟩ := h1 c hc
    refine ⟨?_, hu⟩
    simp only [is_word_char, isalnum, Bool.or_eq_true, beq_iff_eq] at hw
    rcases hw with ((h2 | h2) | h2) | h2
    · exact Or.inr (Or.inl h2)
    · rw [hu] at h2
      cases h2
    · exact Or.inl h2
    · exact Or.inr (Or.inr h2)

theorem parse_ok_protocol_and_names_witness :
    bytes "v4l2" ≠ [] ∧ (∀ c ∈ bytes "v4l2", isalnum c = true) ∧
    (∀ o ∈ [(bytes "size", bytes "VGA"), (bytes "fps", bytes "30")], ∀ c ∈ o.1,
      (islower c = true ∨ isdigit c = true ∨ c = 95) ∧ isupper c = false) :=
  parse_ok_protocol_and_names 2 (bytes "v4l2:[SIZE=VGA, Fps=30]//dev/video0") []
    ⟨bytes "v4l2", [(bytes "size", bytes "VGA"), (bytes "fps", bytes "30")], bytes "dev/video0"⟩
    (by decide)

theorem tolower_of_lower (n : List Nat) (h : ∀ c ∈ n, isupper c = false) : tolower n = n := by
  induction n with
  | nil => rfl
  | cons a r ih =>
    have ha : isupper a = false := h a (by simp)
    have hr : tolower r = r := ih (fun c hc => h c (by simp [hc]))
    simp only [tolower, List.map_cons, ctolower, ha] at hr ⊢
    rw [hr]
    simp

theorem map_tolower_of_lower (opts : List (List Nat × List Nat))
    (h : ∀ o ∈ opts, ∀ c ∈ o.1, isupper c = false) :
    opts.map (fun o => (tolower o.1, o.2)) = opts := by
  induction opts with
  | nil => rfl
  | cons o t ih =>
    rw [List.map_cons, ih (fun x hx => h x (by simp [hx])), tolower_of_lower o.1 (h o (by simp))]

/-- C20: for a record with a non-empty alphanumeric protocol, a non-empty
list of options with non-empty lower-case word names and word values, and an
identifier of printable non-whitespace characters not starting with a double
quote, parsing the rendering returns the protocol, the identifier and the
options followed by one option of empty name and value, which is never the
original list; with the option list empty, parsing the rendering returns the
record itself. -/
theorem render_reparse_options (fuel : Nat) (r : VideoSource)
    (hp : r.protocol ≠ []) (hpa : ∀ c ∈ r.protocol, isalnum c = true)
    (hne : r.options ≠ [])
    (hnames : ∀ o ∈ r.options, o.1 ≠ [] ∧
      ∀ c ∈ o.1, is_word_char c = true ∧ isupper c = false)
    (hvals : ∀ o ∈ r.options, ∀ c ∈ o.2, is_word_char c = true)
    (hid : ∀ c ∈ r.identifier, isgraph c = true) (hq : r.identifier.head? ≠ some 34)
    (hf : r.options.length < fuel) :
    parse fuel (render r) VideoSource.empty =
      (.ok [], ⟨r.protocol, r.options ++ [([], [])], r.identifier⟩) ∧
    r.options ++ [([], [])] ≠ r.options ∧
    parse fuel (render ⟨r.protocol, [], r.identifier⟩) VideoSource.empty =
      (.ok [], ⟨r.protocol, [], r.identifier⟩) := by
  refine ⟨?_, ?_, ?_⟩
  · have hopts : ∀ o ∈ r.options,
        (∀ c ∈ o.1, is_word_char c = true) ∧ (∀ c ∈ o.2, is_word_char c = true) :=
      fun o ho => ⟨fun c hc => ((hnames o ho).2 c hc).1, hvals o ho⟩
    rw [parse_render fuel r hp hpa hopts hid hq hf, if_neg hne,
      map_tolower_of_lower r.options (fun o ho c hc => ((hnames o ho).2 c hc).2)]
  · intro hc
    have hl := congrArg List.length hc
    simp at hl
  · have h0 := parse_render fuel ⟨r.protocol, [], r.identifier⟩ hp hpa (by simp) hid hq
      (by simp only [List.length_nil]; omega)
    simpa using h0

theorem render_reparse_options_witness :
    parse 3 (render ⟨bytes "v4l2", [(bytes "size", bytes "vga"), (bytes "fps", [])],
        bytes "dev/video0"⟩) VideoSource.empty =
      (.ok [], ⟨bytes "v4l2", [(bytes "size", bytes "vga"), (bytes "fps", [])] ++ [([], [])],
        bytes "dev/video0"⟩) ∧
    [(bytes "size", bytes "vga"), (bytes "fps", [])] ++ [([], [])] ≠
      [(bytes "size", bytes "vga"), (bytes "fps", [])] ∧
    parse 3 (render ⟨bytes "v4l2", [], bytes "dev/video0"⟩) VideoSource.empty =
      (.ok [], ⟨bytes "v4l2", [], bytes "dev/video0"⟩) :=
  render_reparse_options 3
    ⟨bytes "v4l2", [(bytes "size", bytes "vga"), (bytes "fps", [])], bytes "dev/video0"⟩
    (by decide) (by decide) (by decide) (by decide) (by decide) (by decide) (by decide)
    (by decide)

theorem unescape_loop_escape (b : Nat) (hb : b < 256) (rest ret : List Nat) :
    unescape_loop (escape b ++ rest) ret = unescape_loop rest (ret ++ [b]) := by
  by_cases hn : b ∈ named_bytes
  · simp only [named_bytes, List.mem_cons, List.mem_singleton, List.not_mem_nil, or_false] at hn
    have hfind : ∀ e v, isdigit e = false → e ≠ 104 →
        mapping.find? (fun m => m.1 == e) = some (e, v) →
        unescape_loop (92 :: e :: rest) ret = unescape_loop rest (ret ++ [v]) := by
      intro e v hd hh hm
      rw [unescape_loop.eq_def]
      simp [hd, hh, hm]
    rcases hn with rfl | rfl | rfl | rfl | rfl | rfl | rfl | rfl | rfl | rfl
    · exact hfind 97 7 (by decide) (by decide) (by decide)
    · exact hfind 98 8 (by decide) (by decide) (by decide)
    · exact hfind 102 12 (by decide) (by decide) (by decide)
    · exact hfind 110 10 (by decide) (by decide) (by decide)
    · exact hfind 114 13 (by decide) (by decide) (by decide)
    · exact hfind 116 9 (by decide) (by decide) (by decide)
    · exact hfind 118 11 (by decide) (by decide) (by decide)
    · exact hfind 92 92 (by decide) (by decide) (by decide)
    · exact hfind 39 39 (by decide) (by decide) (by decide)
    · exact hfind 34 34 (by decide) (by decide) (by decide)
  · have he := (escape_plain_table b hb hn).1
    have h92 : b ≠ 92 := fun h => hn (by rw [h]; decide)
    rw [he, List.singleton_append, unescape_loop.eq_def]
    simp [h92]

theorem unescape_loop_escape_all (t : List Nat) (ht : ∀ b ∈ t, b < 256) (ret : List Nat) :
    unescape_loop (t.map escape).flatten ret = .ok (ret ++ t) := by
  induction t generalizing ret with
  | nil => simp [unescape_loop]
  | cons b r ih =>
    rw [List.map_cons, List.flatten_cons, unescape_loop_escape b (ht b (by simp)),
      ih (fun c hc => ht c (by simp [hc]))]
    simp

/-- C19: escaping a byte string byte by byte and unescaping the concatenation
returns the byte string. -/
theorem unescape_escape_string (t : List Nat) (ht : ∀ b ∈ t, b < 256) :
    unescape (t.map escape).flatten = .ok t := by
  simpa [unescape] using unescape_loop_escape_all t ht []

theorem unescape_escape_string_witness :
    unescape ((bytes "a\\1\"\n\t'z").map escape).flatten = .ok (bytes "a\\1\"\n\t'z") :=
  unescape_escape_string (bytes "a\\1\"\n\t'z") (by decide)

theorem tail_suffix_of (l : List Nat) : l.tail <:+ l := List.tail_suffix l

theorem match_ok (inp rest : List Nat) (c : Nat) (h : match_ inp c = .ok rest) :
    inp = c :: rest := by
  unfold match_ at h
  split at h
  · cases h
  · rename_i hh
    simp only [ne_eq, not_not] at hh
    cases inp with
    | nil => simp at hh
    | cons a r =>
      simp only [List.head?_cons, Option.some.injEq] at hh
      simp only [List.tail_cons, Except.ok.injEq] at h
      rw [hh, h]

theorem read_quoted_loop_suffix (fuel : Nat) (inp value v rest : List Nat)
    (h : read_quoted_loop fuel inp value = some (v, rest)) : rest <:+ inp := by
  induction fuel generalizing inp value with
  | zero => simp [read_quoted_loop] at h
  | succ n ih =>
    rw [read_quoted_loop] at h
    split at h
    · simp only [] at h
      split at h
      · exact ((ih _ _ h).trans (List.tail_suffix _)).trans (List.tail_suffix _)
      · exact (ih _ _ h).trans (List.tail_suffix _)
    · simp only [Option.some.injEq, Prod.mk.injEq] at h
      rw [← h.2]

theorem read_quoted_literal_suffix (fuel : Nat) (inp lit rest : List Nat)
    (h : read_quoted_literal fuel inp = .ok (lit, rest)) : rest <:+ inp := by
  unfold read_quoted_literal at h
  cases h1 : match_ inp 34 with
  | error e => simp [h1] at h
  | ok in1 =>
    rw [h1] at h
    simp only [] at h
    cases h2 : read_quoted_loop fuel in1 [] with
    | none => simp [h2] at h
    | some r =>
      obtain ⟨value, in2⟩ := r
      rw [h2] at h
      simp only [] at h
      cases h3 : match_ in2 34 with
      | error e => simp [h3] at h
      | ok in3 =>
        rw [h3] at h
        simp only [Result.ok.injEq, Prod.mk.injEq] at h
        rw [← h.2]
        have e1 := match_ok inp in1 34 h1
        have e3 := match_ok in2 in3 34 h3
        have s2 := read_quoted_loop_suffix fuel in1 [] value in2 h2
        have s3 : in3 <:+ in2 := by
          rw [e3]
          exact List.suffix_cons _ _
        have s1 : in1 <:+ inp := by
          rw [e1]
          exact List.suffix_cons _ _
        exact (s3.trans s2).trans s1

theorem skip_ws_suffix (inp : List Nat) : skip_ws inp <:+ inp :=
  List.dropWhile_suffix _

theorem read_while_suffix (p : Nat → Bool) (inp : List Nat) : (read_while p inp).2 <:+ inp :=
  List.dropWhile_suffix _

theorem read_option_suffix (fuel : Nat) (inp rest : List Nat) (o : List Nat × List Nat)
    (h : read_option fuel inp = .ok (o, rest)) : rest <:+ inp := by
  have s1 : skip_ws (read_word (skip_ws inp)).2 <:+ inp :=
    ((skip_ws_suffix _).trans (read_while_suffix _ _)).trans (skip_ws_suffix _)
  have s2 : skip_ws (skip_ws (read_word (skip_ws inp)).2).tail <:+ inp :=
    ((skip_ws_suffix _).trans (List.tail_suffix _)).trans s1
  unfold read_option at h
  simp only [] at h
  split at h
  · simp only [Result.ok.injEq, Prod.mk.injEq] at h
    rw [← h.2]
    exact s1
  · split at h
    · cases hq : read_quoted_literal fuel
        (skip_ws (skip_ws (read_word (skip_ws inp)).2).tail) with
      | timeout => simp [hq] at h
      | throws e => simp [hq] at h
      | ok r =>
        obtain ⟨lit, in4⟩ := r
        rw [hq] at h
        simp only [] at h
        cases hu : unescape lit with
        | error e => simp [hu] at h
        | ok v =>
          rw [hu] at h
          simp only [Result.ok.injEq, Prod.mk.injEq] at h
          rw [← h.2]
          exact (read_quoted_literal_suffix fuel _ lit in4 hq).trans s2
    · simp only [Result.ok.injEq, Prod.mk.injEq] at h
      rw [← h.2]
      exact (read_while_suffix _ _).trans s2

theorem parse_options_suffix (n fuel : Nat) (inp rest : List Nat)
    (opts opts1 : List (List Nat × List Nat))
    (h : parse_options n fuel inp opts = (.ok rest, opts1)) : rest <:+ inp := by
  induction n generalizing inp opts with
  | zero => simp [parse_options] at h
  | succ m ih =>
    rw [parse_options] at h
    cases hr : read_option fuel inp with
    | timeout => simp [hr] at h
    | throws e => simp [hr] at h
    | ok r =>
      obtain ⟨o, in1⟩ := r
      rw [hr] at h
      simp only [] at h
      have s1 : skip_ws in1 <:+ inp :=
        (skip_ws_suffix _).trans (read_option_suffix fuel inp in1 o hr)
      split at h
      · simp only [Prod.mk.injEq, Result.ok.injEq] at h
        rw [← h.1]
        exact s1
      · exact (ih _ _ h).trans ((List.tail_suffix _).trans s1)

theorem parse_reaches_identifier (fuel : Nat) (inp rest : List Nat) (vs r : VideoSource)
    (h : parse fuel inp vs = (.ok rest, r)) :
    ∃ s vs1, s <:+ inp ∧ parse_identifier fuel s vs1 = (.ok rest, r) := by
  have hu := parse_unfold fuel inp vs (read_while isalnum (skip_ws inp)).1
    (read_while isalnum (skip_ws inp)).2 rfl
  have hsuf : (read_while isalnum (skip_ws inp)).2 <:+ inp :=
    (read_while_suffix _ _).trans (skip_ws_suffix _)
  rw [hu] at h
  generalize (read_while isalnum (skip_ws inp)).1 = prot at h
  generalize (read_while isalnum (skip_ws inp)).2 = tl at h hsuf
  by_cases hp : prot.length = 0
  · rw [if_pos hp] at h
    cases h
  · rw [if_neg hp] at h
    by_cases hc : tl.head? ≠ some 58
    · rw [if_pos hc] at h
      cases h
    · rw [if_neg hc] at h
      by_cases hb : tl.tail.head? = some 91
      · rw [if_pos hb] at h
        rcases hpo : parse_options fuel fuel tl.tail.tail vs.options with ⟨res, opts⟩
        rw [hpo] at h
        cases res with
        | timeout => cases h
        | throws e => cases h
        | ok in2 =>
          simp only [] at h
          have s2 : in2 <:+ inp :=
            (parse_options_suffix fuel fuel _ in2 _ opts hpo).trans
              ((List.tail_suffix _).trans ((List.tail_suffix _).trans hsuf))
          cases hm : match_ (skip_ws in2) 93 with
          | error e =>
            rw [hm] at h
            cases h
          | ok in3 =>
            rw [hm] at h
            simp only [] at h
            have e3 := match_ok _ in3 93 hm
            have s3 : in3 <:+ inp := by
              have : in3 <:+ skip_ws in2 := by
                rw [e3]
                exact List.suffix_cons _ _
              exact this.trans ((skip_ws_suffix _).trans s2)
            exact ⟨in3, _, s3, h⟩
      · rw [if_neg hb] at h
        exact ⟨tl.tail, _, (List.tail_suffix _).trans hsuf, h⟩

theorem parse_identifier_unquoted (fuel : Nat) (t : List Nat) (vs : VideoSource)
    (h : t.head? ≠ some 34) :
    parse_identifier fuel (47 :: 47 :: t) vs =
      (.ok (t.dropWhile isgraph), { vs with identifier := t.takeWhile isgraph }) := by
  simp only [parse_identifier, match_same, h, if_false, read_path, read_while]

theorem parse_identifier_ok_shape (fuel : Nat) (s rest : List Nat) (vs r : VideoSource)
    (h : parse_identifier fuel s vs = (.ok rest, r)) : ∃ t, s = 47 :: 47 :: t := by
  unfold parse_identifier at h
  cases h1 : match_ s 47 with
  | error e => simp [h1] at h
  | ok in1 =>
    rw [h1] at h
    simp only [] at h
    cases h2 : match_ in1 47 with
    | error e => simp [h2] at h
    | ok in2 =>
      refine ⟨in2, ?_⟩
      rw [match_ok s in1 47 h1, match_ok in1 in2 47 h2]

theorem takeWhile_eq_nil_iff_head (p : Nat → Bool) (t : List Nat) :
    t.takeWhile p = [] ↔ ∀ c, t.head? = some c → p c = false := by
  cases t with
  | nil => simp
  | cons a r =>
    by_cases ha : p a = true
    · simp [List.takeWhile_cons, ha]
    · simp only [Bool.not_eq_true] at ha
      simp [List.takeWhile_cons, ha]

/-- C12 (as amended): after a successful parse the input splits at the `//`
that `parse` matched, and when the next character is not a double quote the
identifier is the maximal run of printable non-whitespace characters that
follows; it is empty exactly when the input ends there or goes on with a
character that is not printable or is whitespace. -/
theorem parse_unquoted_identifier (fuel : Nat) (inp rest : List Nat) (r : VideoSource)
    (h : parse fuel inp VideoSource.empty = (.ok rest, r)) :
    ∃ pre t vs1, inp = pre ++ 47 :: 47 :: t ∧
      parse_identifier fuel (47 :: 47 :: t) vs1 = (.ok rest, r) ∧
      (t.head? ≠ some 34 →
        r.identifier = t.takeWhile isgraph ∧ (∀ c ∈ r.identifier, isgraph c = true) ∧
        (r.identifier = [] ↔ ∀ c, t.head? = some c → isgraph c = false)) := by
  obtain ⟨s, vs1, hs, hpi⟩ := parse_reaches_identifier fuel inp rest _ r h
  obtain ⟨t, ht⟩ := parse_identifier_ok_shape fuel s rest vs1 r hpi
  obtain ⟨pre, hpre⟩ := hs
  subst ht
  refine ⟨pre, t, vs1, hpre.symm, hpi, fun hq => ?_⟩
  rw [parse_identifier_unquoted fuel t vs1 hq] at hpi
  simp only [Prod.mk.injEq, Result.ok.injEq] at hpi
  have hid : r.identifier = t.takeWhile isgraph := by
    rw [← hpi.2]
  refine ⟨hid, fun c hc => ?_, ?_⟩
  · rw [hid] at hc
    exact List.mem_takeWhile_imp hc
  · rw [hid]
    exact takeWhile_eq_nil_iff_head isgraph t

theorem parse_unquoted_identifier_witness :
    ∃ pre t vs1, bytes "v4l2:[size=vga]//dev/video0 x" = pre ++ 47 :: 47 :: t ∧
      parse_identifier 1 (47 :: 47 :: t) vs1 =
        (.ok (bytes " x"), ⟨bytes "v4l2", [(bytes "size", bytes "vga")], bytes "dev/video0"⟩) ∧
      (t.head? ≠ some 34 →
        bytes "dev/video0" = t.takeWhile isgraph ∧
        (∀ c ∈ bytes "dev/video0", isgraph c = true) ∧
        (bytes "dev/video0" = [] ↔ ∀ c, t.head? = some c → isgraph c = false)) :=
  parse_unquoted_identifier 1 (bytes "v4l2:[size=vga]//dev/video0 x") (bytes " x")
    ⟨bytes "v4l2", [(bytes "size", bytes "vga")], bytes "dev/video0"⟩ (by decide)

/-- C12 (as stated) fails: `files://` parses, its identifier is not quoted,
and the identifier is empty. -/
theorem parse_empty_identifier :
    parse 1 (bytes "files://") VideoSource.empty = (.ok [], ⟨bytes "files", [], []⟩) := by
  decide

/-! ## The option resolvers: properties -/

theorem last_named_cons (k : List Nat) (o : List Nat × List Nat)
    (t : List (List Nat × List Nat)) :
    last_named k (o :: t) = (last_named k t).or (if o.1 = k then some o else none) := by
  unfold last_named
  rw [List.reverse_cons, List.find?_append]
  by_cases h : o.1 = k
  · simp [h]
  · simp [h]

theorem last_or_cons {α : Type} (k : List Nat) (o : List Nat × List Nat)
    (t : List (List Nat × List Nat)) (d : α) (f : List Nat → α) :
    last_or k (o :: t) d f = last_or k t (if o.1 = k then f o.2 else d) f := by
  unfold last_or
  rw [last_named_cons]
  cases last_named k t with
  | some x => rfl
  | none =>
    by_cases h : o.1 = k
    · simp [h]
    · simp [h]

theorem get_files_options_loop_ok (opts : List (List Nat × List Nat)) (c : FilesOptions)
    (h : ∀ o ∈ opts, files_option_ok o) :
    get_files_options_loop opts c =
      .ok ⟨last_or (bytes "fps") opts c.fps atoi,
        last_or (bytes "read_ahead") opts c.ra_frames (fun v => if v = [] then 50 else atoi v),
        last_or (bytes "on_end") opts c.eob on_end_value⟩ := by
  induction opts generalizing c with
  | nil => rfl
  | cons o t ih =>
    have ht : ∀ x ∈ t, files_option_ok x := fun x hx => h x (by simp [hx])
    have ho := h o (by simp)
    have n1 : bytes "fps" ≠ bytes "read_ahead" := by decide
    have n2 : bytes "fps" ≠ bytes "on_end" := by decide
    have n3 : bytes "read_ahead" ≠ bytes "on_end" := by decide
    rw [get_files_options_loop, last_or_cons, last_or_cons, last_or_cons]
    rcases ho with h1 | h1 | ⟨h1, h2⟩
    · rw [if_pos h1, ih _ ht]
      simp [h1, n1, n2]
    · rw [if_neg (by rw [h1]; exact n1.symm), if_pos h1, ih _ ht]
      have hl : (o.2.length ≠ 0) ↔ ¬ o.2 = [] := by simp
      simp [h1, n1.symm, n3, hl]
    · rw [if_neg (by rw [h1]; exact n2.symm), if_neg (by rw [h1]; exact n3.symm), if_pos h1]
      have m1 : bytes "unset_pending" ≠ bytes "loop" := by decide
      have m2 : bytes "repeat_last" ≠ bytes "loop" := by decide
      have m3 : bytes "repeat_last" ≠ bytes "unset_pending" := by decide
      rcases h2 with h2 | h2 | h2
      · rw [if_pos h2, ih _ ht]
        simp [h1, n2.symm, n3.symm, h2, on_end_value]
      · rw [if_neg (by rw [h2]; exact m1), if_pos h2, ih _ ht]
        simp [h1, n2.symm, n3.symm, h2, on_end_value, m1]
      · rw [if_neg (by rw [h2]; exact m2), if_neg (by rw [h2]; exact m3), if_pos h2, ih _ ht]
        simp [h1, n2.symm, n3.symm, h2, on_end_value, m2, m3]

/-- C14: when all names are among `fps`, `read_ahead`, `on_end` and all
`on_end` values among `loop`, `unset_pending`, `repeat_last`, the generic
resolver succeeds with each field taken from the last option of its name
(`read_ahead` with an empty value giving 50) or left at its default; the empty
list gives fps 30, read_ahead 0, RepeatLastFrame. -/
theorem get_files_options_last_wins (vs : VideoSource)
    (hnames : ∀ o ∈ vs.options,
      o.1 = bytes "fps" ∨ o.1 = bytes "read_ahead" ∨ o.1 = bytes "on_end")
    (hend : ∀ o ∈ vs.options, o.1 = bytes "on_end" →
      o.2 = bytes "loop" ∨ o.2 = bytes "unset_pending" ∨ o.2 = bytes "repeat_last") :
    get_files_options vs = .ok (files_options_spec vs.options) ∧
    (vs.options = [] → get_files_options vs = .ok ⟨30, 0, .RepeatLastFrame⟩) := by
  have hok : ∀ o ∈ vs.options, files_option_ok o := by
    intro o ho
    rcases hnames o ho with h1 | h1 | h1
    · exact Or.inl h1
    · exact Or.inr (Or.inl h1)
    · exact Or.inr (Or.inr ⟨h1, hend o ho h1⟩)
  have h1 : get_files_options vs = .ok (files_options_spec vs.options) := by
    unfold get_files_options files_options_spec
    rw [get_files_options_loop_ok _ _ hok]
  refine ⟨h1, fun he => ?_⟩
  rw [h1, he]
  rfl

theorem get_files_options_last_wins_witness :
    get_files_options ⟨bytes "files", [(bytes "fps", bytes "25"), (bytes "read_ahead", []),
        (bytes "on_end", bytes "loop"), (bytes "fps", bytes "60"),
        (bytes "on_end", bytes "unset_pending")], bytes "x"⟩ =
      .ok (files_options_spec [(bytes "fps", bytes "25"), (bytes "read_ahead", []),
        (bytes "on_end", bytes "loop"), (bytes "fps", bytes "60"),
        (bytes "on_end", bytes "unset_pending")]) ∧
    files_options_spec [(bytes "fps", bytes "25"), (bytes "read_ahead", []),
        (bytes "on_end", bytes "loop"), (bytes "fps", bytes "60"),
        (bytes "on_end", bytes "unset_pending")] = ⟨60, 50, .UnsetPending⟩ :=
  ⟨(get_files_options_last_wins ⟨bytes "files", [(bytes "fps", bytes "25"),
      (bytes "read_ahead", []), (bytes "on_end", bytes "loop"), (bytes "fps", bytes "60"),
      (bytes "on_end", bytes "unset_pending")], bytes "x"⟩ (by decide) (by decide)).1,
    by decide⟩

theorem get_files_options_loop_step (o : List Nat × List Nat)
    (t : List (List Nat × List Nat)) (c : FilesOptions) (h : files_option_ok o) :
    ∃ c1, get_files_options_loop (o :: t) c = get_files_options_loop t c1 := by
  have n1 : bytes "fps" ≠ bytes "read_ahead" := by decide
  have n2 : bytes "fps" ≠ bytes "on_end" := by decide
  have n3 : bytes "read_ahead" ≠ bytes "on_end" := by decide
  have m1 : bytes "unset_pending" ≠ bytes "loop" := by decide
  have m2 : bytes "repeat_last" ≠ bytes "loop" := by decide
  have m3 : bytes "repeat_last" ≠ bytes "unset_pending" := by decide
  rw [get_files_options_loop]
  rcases h with h1 | h1 | ⟨h1, h2⟩
  · exact ⟨_, by rw [if_pos h1]⟩
  · exact ⟨_, by rw [if_neg (by rw [h1]; exact n1.symm), if_pos h1]⟩
  · rw [if_neg (by rw [h1]; exact n2.symm), if_neg (by rw [h1]; exact n3.symm), if_pos h1]
    rcases h2 with h2 | h2 | h2
    · exact ⟨_, by rw [if_pos h2]⟩
    · exact ⟨_, by rw [if_neg (by rw [h2]; exact m1), if_pos h2]⟩
    · exact ⟨_, by rw [if_neg (by rw [h2]; exact m2), if_neg (by rw [h2]; exact m3), if_pos h2]⟩

theorem get_files_options_loop_bad (o : List Nat × List Nat)
    (t : List (List Nat × List Nat)) (c : FilesOptions) (h : ¬ files_option_ok o) :
    ∃ msg, get_files_options_loop (o :: t) c = .error (.VideoSourceException msg) := by
  simp only [files_option_ok, not_or, not_and] at h
  obtain ⟨h1, h2, h3⟩ := h
  rw [get_files_options_loop, if_neg h1, if_neg h2]
  by_cases h4 : o.1 = bytes "on_end"
  · obtain ⟨v1, v2, v3⟩ := h3 h4
    rw [if_pos h4, if_neg v1, if_neg v2, if_neg v3]
    exact ⟨_, rfl⟩
  · rw [if_neg h4]
    exact ⟨_, rfl⟩

theorem get_files_options_loop_fails (opts : List (List Nat × List Nat)) (c : FilesOptions)
    (h : ¬ ∀ o ∈ opts, files_option_ok o) :
    ∃ msg, get_files_options_loop opts c = .error (.VideoSourceException msg) := by
  induction opts generalizing c with
  | nil => exact absurd (by simp) h
  | cons o t ih =>
    by_cases ho : files_option_ok o
    · obtain ⟨c1, hc1⟩ := get_files_options_loop_step o t c ho
      rw [hc1]
      apply ih
      intro ht
      apply h
      intro x hx
      rcases List.mem_cons.mp hx with rfl | hx
      · exact ho
      · exact ht x hx
    · exact get_files_options_loop_bad o t c ho

/-- C15: the generic resolver succeeds exactly when every option is named
`fps` or `read_ahead`, or is named `on_end` with the value `loop`,
`unset_pending` or `repeat_last`; otherwise it throws a
`VideoSourceException`, and it never throws a `ParseException`. -/
theorem get_files_options_succeeds_iff (vs : VideoSource) :
    ((∃ c, get_files_options vs = .ok c) ↔ ∀ o ∈ vs.options, files_option_ok o) ∧
    ((¬ ∀ o ∈ vs.options, files_option_ok o) →
      ∃ msg, get_files_options vs = .error (.VideoSourceException msg)) ∧
    (∀ msg, get_files_options vs ≠ .error (.ParseException msg)) := by
  have hfail : (¬ ∀ o ∈ vs.options, files_option_ok o) →
      ∃ msg, get_files_options vs = .error (.VideoSourceException msg) :=
    fun h => get_files_options_loop_fails vs.options _ h
  have hgood : (∀ o ∈ vs.options, files_option_ok o) → ∃ c, get_files_options vs = .ok c :=
    fun h => ⟨_, get_files_options_loop_ok vs.options _ h⟩
  refine ⟨⟨fun hc => ?_, hgood⟩, hfail, fun msg hm => ?_⟩
  · by_contra hn
    obtain ⟨msg, hmsg⟩ := hfail hn
    obtain ⟨c, hc⟩ := hc
    rw [hmsg] at hc
    cases hc
  · by_cases hv : ∀ o ∈ vs.options, files_option_ok o
    · obtain ⟨c, hc⟩ := hgood hv
      rw [hc] at hm
      cases hm
    · obtain ⟨m2, h2⟩ := hfail hv
      rw [h2] at hm
      cases hm

theorem get_files_options_succeeds_iff_witness :
    ∃ msg, get_files_options ⟨bytes "files", [(bytes "fps", bytes "25"),
      (bytes "on_end", bytes "Loop")], bytes "x"⟩ = .error (.VideoSourceException msg) :=
  (get_files_options_succeeds_iff ⟨bytes "files", [(bytes "fps", bytes "25"),
    (bytes "on_end", bytes "Loop")], bytes "x"⟩).2.1 (by decide)

theorem get_v4l2_options_loop_append (pre t : List (List Nat × List Nat)) (c : V4L2Options) :
    get_v4l2_options_loop (pre ++ t) c =
      match get_v4l2_options_loop pre c with
      | .error e => .error e
      | .ok c1 => get_v4l2_options_loop t c1 := by
  induction pre generalizing c with
  | nil => rfl
  | cons o r ih =>
    rw [List.cons_append, get_v4l2_options_loop, get_v4l2_options_loop]
    cases get_v4l2_options_step o c with
    | error e => rfl
    | ok c1 => exact ih c1

theorem get_v4l2_options_step_unknown (o : List Nat × List Nat) (c : V4L2Options)
    (h : o.1 ∉ v4l2_keys) :
    get_v4l2_options_step o c =
      .error (.VideoSourceException (bytes "invalid option for 'v4l2' protocol: " ++ o.1 ++
        bytes "\n\t valid options: size, input, interlaced, fields")) := by
  simp only [v4l2_keys, List.mem_cons, List.mem_singleton, List.not_mem_nil, or_false,
    not_or] at h
  obtain ⟨h1, h2, h3, h4⟩ := h
  unfold get_v4l2_options_step
  rw [if_neg h1, if_neg h2, if_neg (by
    intro hc
    rcases hc with hc | hc
    · exact h3 hc
    · exact h4 hc)]

/-- C13: an option list that contains an option whose name is none of
`size`, `input`, `interlaced`, `fields` never makes the V4L2 resolver
succeed; and when the options before it are handled without error, the
resolver throws at that option a `VideoSourceException` whose message names
the option and lists `size, input, interlaced, fields`. -/
theorem get_v4l2_options_unknown (vs : VideoSource) (pre post : List (List Nat × List Nat))
    (name value : List Nat) (hsplit : vs.options = pre ++ (name, value) :: post)
    (hname : name ∉ v4l2_keys) :
    (∀ c, get_v4l2_options vs ≠ .ok c) ∧
    (∀ c, get_v4l2_options ⟨vs.protocol, pre, vs.identifier⟩ = .ok c →
      get_v4l2_options vs =
        .error (.VideoSourceException (bytes "invalid option for 'v4l2' protocol: " ++ name ++
          bytes "\n\t valid options: size, input, interlaced, fields"))) := by
  have hstep : ∀ c, get_v4l2_options_loop ((name, value) :: post) c =
      .error (.VideoSourceException (bytes "invalid option for 'v4l2' protocol: " ++ name ++
        bytes "\n\t valid options: size, input, interlaced, fields")) := by
    intro c
    rw [get_v4l2_options_loop, get_v4l2_options_step_unknown (name, value) c hname]
  have hrun : get_v4l2_options vs =
      match get_v4l2_options_loop pre ⟨⟨640, 480⟩, -1, false⟩ with
      | .error e => .error e
      | .ok c1 => get_v4l2_options_loop ((name, value) :: post) c1 := by
    unfold get_v4l2_options
    rw [hsplit, get_v4l2_options_loop_append]
  constructor
  · intro c hc
    rw [hrun] at hc
    cases hp : get_v4l2_options_loop pre ⟨⟨640, 480⟩, -1, false⟩ with
    | error e =>
      rw [hp] at hc
      cases hc
    | ok c1 =>
      rw [hp] at hc
      simp only [] at hc
      rw [hstep c1] at hc
      cases hc
  · intro c hc
    unfold get_v4l2_options at hc
    simp only [] at hc
    rw [hrun, hc]
    exact hstep c

theorem get_v4l2_options_unknown_witness :
    (∀ c, get_v4l2_options ⟨bytes "v4l2", [(bytes "bogus", bytes "1")], bytes "dev"⟩ ≠ .ok c) ∧
    (∀ c, get_v4l2_options ⟨bytes "v4l2", [], bytes "dev"⟩ = .ok c →
      get_v4l2_options ⟨bytes "v4l2", [(bytes "bogus", bytes "1")], bytes "dev"⟩ =
        .error (.VideoSourceException (bytes "invalid option for 'v4l2' protocol: " ++
          bytes "bogus" ++ bytes "\n\t valid options: size, input, interlaced, fields"))) :=
  get_v4l2_options_unknown ⟨bytes "v4l2", [(bytes "bogus", bytes "1")], bytes "dev"⟩ [] []
    (bytes "bogus") (bytes "1") rfl (by decide)

/-- C16: the file resolver rejects the option `fps`, and the message of that
rejection lists `fps` among the valid options. -/
theorem get_file_options_rejects_listed_key :
    ∀ ra_frames, get_file_options ⟨bytes "file", [(bytes "fps", bytes "30")], bytes "x"⟩
        ra_frames =
      .error (.VideoSourceException
        (bytes "invalid option for 'file' protocol: fps\n\t valid options: read_ahead, on_end, fps")) := by
  intro ra_frames
  have n1 : ¬ (bytes "fps" = bytes "read_ahead") := by decide
  have n2 : ¬ (bytes "fps" = bytes "on_end") := by decide
  unfold get_file_options
  simp only [get_file_options_loop, n1, n2, if_false]
  decide

/-- C17: for the size text `640y480`, two integers separated by a character
other than `x`, the V4L2 resolver returns the size 640x480 and throws
nothing. -/
theorem get_v4l2_options_accepts_other_separator :
    get_v4l2_options ⟨bytes "v4l2", [(bytes "size", bytes "640y480")], bytes "dev"⟩ =
      .ok ⟨⟨640, 480⟩, -1, false⟩ := by
  decide

theorem atoi_in_range (v : List Nat)
    (h : -2147483648 ≤ leading_int (v.dropWhile isspace) ∧
      leading_int (v.dropWhile isspace) ≤ 2147483647) :
    atoi v = leading_int (v.dropWhile isspace) := by
  unfold atoi
  unfold leading_int at h ⊢
  simp only [] at h ⊢
  generalize (if (read_sign (List.dropWhile isspace v)).1 = true then
    -((digits_value (List.takeWhile isdigit (read_sign (List.dropWhile isspace v)).2) : Nat) : Int)
    else ((digits_value (List.takeWhile isdigit (read_sign (List.dropWhile isspace v)).2) : Nat) : Int))
    = n at h ⊢
  obtain ⟨h1, h2⟩ := h
  rw [if_neg (by omega), if_neg (by omega)]
  omega

/-- C18 (as amended): for a value whose number, read after the leading
whitespace, fits in a 32-bit signed integer, the generic resolver applied to
the single option `fps` succeeds with `fps` equal to the integer denoted by
the longest optionally signed run of decimal digits that follows the leading
whitespace, and 0 when there is none. -/
theorem get_files_options_fps (p id v : List Nat)
    (h : -2147483648 ≤ leading_int (v.dropWhile isspace) ∧
      leading_int (v.dropWhile isspace) ≤ 2147483647) :
    get_files_options ⟨p, [(bytes "fps", v)], id⟩ =
      .ok ⟨leading_int (v.dropWhile isspace), 0, .RepeatLastFrame⟩ := by
  unfold get_files_options
  simp only [get_files_options_loop, if_true, atoi_in_range v h]

theorem get_files_options_fps_witness :
    get_files_options ⟨bytes "files", [(bytes "fps", bytes "\t -25fps")], bytes "x"⟩ =
      .ok ⟨leading_int ((bytes "\t -25fps").dropWhile isspace), 0, .RepeatLastFrame⟩ ∧
    leading_int ((bytes "\t -25fps").dropWhile isspace) = -25 ∧
    get_files_options ⟨bytes "files", [(bytes "fps", bytes "abc")], bytes "x"⟩ =
      .ok ⟨leading_int ((bytes "abc").dropWhile isspace), 0, .RepeatLastFrame⟩ ∧
    leading_int ((bytes "abc").dropWhile isspace) = 0 :=
  ⟨get_files_options_fps (bytes "files") (bytes "x") (bytes "\t -25fps") (by decide),
    by decide,
    get_files_options_fps (bytes "files") (bytes "x") (bytes "abc") (by decide),
    by decide⟩

/-- C18 (as stated) fails: the value ` 42`, a space before the digits, does
not begin with a run of digits, so the stated result is 0, and the resolver
returns fps 42. -/
theorem get_files_options_fps_leading_space :
    get_files_options ⟨bytes "files", [(bytes "fps", bytes " 42")], bytes "x"⟩ =
      .ok ⟨42, 0, .RepeatLastFrame⟩ ∧
    leading_int (bytes " 42") = 0 := by
  decide

end CVD
